import Mathlib

/-!
# light-image-proxy: the relay handler of `main.go`

A shallow embedding of `proxyHandler` and `simplifiedProxyHandler` together
with the parts of the Go standard library they call (`strings`, `net/url`,
`net/textproto`, `net/http.Header`), followed by the properties of the
relay contract.

Go strings are byte sequences, so a string is a list of bytes here.  The
network (`http.NewRequest`, `client.Do`, `io.Copy`) and the clock are
parameters of the handler, collected in `Env`.
-/

namespace LightImageProxy

/-! ## Strings -/

/-- One byte of a Go string. -/
abbrev Byte := Fin 256

/-- A Go `string`: an immutable sequence of bytes. -/
abbrev GoString := List Byte

/-- UTF-8 encoding of one code point, as the Go compiler encodes the runes of a
string literal. -/
def utf8EncodeChar (c : Char) : GoString :=
  let n := c.toNat
  if n < 0x80 then [Fin.ofNat n]
  else if n < 0x800 then [Fin.ofNat (0xC0 + n / 64), Fin.ofNat (0x80 + n % 64)]
  else if n < 0x10000 then
    [Fin.ofNat (0xE0 + n / 4096), Fin.ofNat (0x80 + n / 64 % 64), Fin.ofNat (0x80 + n % 64)]
  else
    [Fin.ofNat (0xF0 + n / 262144), Fin.ofNat (0x80 + n / 4096 % 64),
     Fin.ofNat (0x80 + n / 64 % 64), Fin.ofNat (0x80 + n % 64)]

/-- The bytes of a string literal of the source. -/
def utf8 (s : String) : GoString := s.toList.flatMap utf8EncodeChar

/-- Go `strings.HasPrefix`. -/
def HasPrefix : GoString → GoString → Bool
  | _, [] => true
  | [], _ :: _ => false
  | c :: s, p :: ps => c == p && HasPrefix s ps

/-- Go `strings.IndexByte`: position of the first occurrence of `sep`. -/
def indexByte (sep : Byte) : GoString → Option Nat
  | [] => none
  | c :: cs => if c = sep then some 0 else (indexByte sep cs).map (· + 1)

/-- Go `strings.Count` for a one-byte separator. -/
def countByte (sep : Byte) (s : GoString) : Nat := s.count sep

/-- The loop of Go `strings.genSplit` for a one-byte separator: `k` is the
number of cuts still allowed (`n - 1 - i` in the source). -/
def genSplitLoop (sep : Byte) : Nat → GoString → List GoString
  | 0, s => [s]
  | k + 1, s =>
    match indexByte sep s with
    | none => [s]
    | some m => s.take m :: genSplitLoop sep k (s.drop (m + 1))

/-- Go `strings.genSplit(s, sep, 0, n)` for a one-byte separator `sep`. -/
def genSplit (s : GoString) (sep : Byte) (n : Int) : List GoString :=
  if n = 0 then []
  else
    let n1 : Nat := if n < 0 then countByte sep s + 1 else n.toNat
    let n2 : Nat := if n1 > s.length + 1 then s.length + 1 else n1
    genSplitLoop sep (n2 - 1) s

/-- Go `strings.Split(s, sep)`. -/
def Split (s : GoString) (sep : Byte) : List GoString := genSplit s sep (-1)

/-- Go `strings.SplitN(s, sep, n)`. -/
def SplitN (s : GoString) (sep : Byte) (n : Int) : List GoString := genSplit s sep n

/-- Go `strings.Cut(s, sep)` without the `found` flag: the text before the
first `sep` and the text after it; `(s, "")` when `sep` does not occur. -/
def Cut (s : GoString) (sep : Byte) : GoString × GoString :=
  match indexByte sep s with
  | some i => (s.take i, s.drop (i + 1))
  | none => (s, [])

/-- The table `asciiSpace` of Go `strings`: tab, newline, vertical tab, form
feed, carriage return, space. -/
def asciiSpace (c : Byte) : Bool :=
  c = 9 || c = 10 || c = 11 || c = 12 || c = 13 || c = 32

/-- The two-byte UTF-8 sequences of white space (`unicode.IsSpace`): U+0085
and U+00A0. -/
def isSpace2 (a b : Byte) : Bool := a = 0xC2 && (b = 0x85 || b = 0xA0)

/-- The three-byte UTF-8 sequences of white space (`unicode.IsSpace`): U+1680,
U+2000..U+200A, U+2028, U+2029, U+202F, U+205F and U+3000. -/
def isSpace3 (a b c : Byte) : Bool :=
  (a = 0xE1 && b = 0x9A && c = 0x80) ||
  (a = 0xE2 && b = 0x80 && ((0x80 ≤ c.val && c.val ≤ 0x8A) || c = 0xA8 || c = 0xA9 || c = 0xAF)) ||
  (a = 0xE2 && b = 0x81 && c = 0x9F) ||
  (a = 0xE3 && b = 0x80 && c = 0x80)

/-- Go `strings.TrimLeftFunc(s, unicode.IsSpace)`: drops the leading runes that
are white space.  A rune is decoded from the front of the string; a byte
sequence that is not the UTF-8 encoding of a white-space rune stops the scan. -/
def trimLeftSpace : GoString → GoString
  | [] => []
  | [a] => if asciiSpace a then [] else [a]
  | [a, b] =>
    if asciiSpace a then trimLeftSpace [b]
    else if isSpace2 a b then [] else [a, b]
  | a :: b :: c :: s =>
    if asciiSpace a then trimLeftSpace (b :: c :: s)
    else if isSpace2 a b then trimLeftSpace (c :: s)
    else if isSpace3 a b c then trimLeftSpace s
    else a :: b :: c :: s

/-- The scan of Go `strings.TrimRightFunc(s, unicode.IsSpace)` on the reversed
string: drops the trailing runes that are white space, each decoded from the end
of the string (`utf8.DecodeLastRuneInString`). -/
def trimRightSpaceRev : GoString → GoString
  | [] => []
  | [a] => if asciiSpace a then [] else [a]
  | [a, b] =>
    if asciiSpace a then trimRightSpaceRev [b]
    else if isSpace2 b a then [] else [a, b]
  | a :: b :: c :: s =>
    if asciiSpace a then trimRightSpaceRev (b :: c :: s)
    else if isSpace2 b a then trimRightSpaceRev (c :: s)
    else if isSpace3 c b a then trimRightSpaceRev s
    else a :: b :: c :: s

/-- Go `strings.TrimSpace`: the string without leading and trailing white
space, as defined by Unicode. -/
def TrimSpace (s : GoString) : GoString :=
  (trimRightSpaceRev (trimLeftSpace s).reverse).reverse

/-! ## `net/url`: query strings -/

/-- Go `url.ishex`. -/
def ishex (c : Byte) : Bool :=
  (48 ≤ c.val && c.val ≤ 57) || (97 ≤ c.val && c.val ≤ 102) || (65 ≤ c.val && c.val ≤ 70)

/-- Go `url.unhex`. -/
def unhex (c : Byte) : Nat :=
  if 48 ≤ c.val && c.val ≤ 57 then c.val - 48
  else if 97 ≤ c.val && c.val ≤ 102 then c.val - 97 + 10
  else if 65 ≤ c.val && c.val ≤ 70 then c.val - 65 + 10
  else 0

/-- Go `upperhex[n]`, the constant `"0123456789ABCDEF"` indexed at `n < 16`. -/
def upperhex (n : Nat) : Byte :=
  if n < 10 then Fin.ofNat (48 + n) else Fin.ofNat (55 + n)

/-- Go `url.shouldEscape(c, encodeQueryComponent)`: everything but the
unreserved characters (letters, digits, `-`, `_`, `.`, `~`) is escaped. -/
def shouldEscape (c : Byte) : Bool :=
  if (97 ≤ c.val && c.val ≤ 122) || (65 ≤ c.val && c.val ≤ 90) || (48 ≤ c.val && c.val ≤ 57) then
    false
  else if c = 45 || c = 95 || c = 46 || c = 126 then false
  else true

/-- What Go `url.escape(s, encodeQueryComponent)` writes for one byte: `+` for a
space, `%XX` for a byte to escape, the byte itself otherwise. -/
def escapeByte (c : Byte) : GoString :=
  if c = 32 then [43]
  else if shouldEscape c then [37, upperhex (c.val / 16), upperhex (c.val % 16)]
  else [c]

/-- Go `url.QueryEscape`. -/
def QueryEscape (s : GoString) : GoString := s.flatMap escapeByte

/-- The first pass of Go `url.unescape`: every `%` is followed by two hex
digits. -/
def unescapeOK : GoString → Bool
  | [] => true
  | c :: s =>
    if c = 37 then
      match s with
      | a :: b :: t => ishex a && ishex b && unescapeOK t
      | _ => false
    else unescapeOK s

/-- The second pass of Go `url.unescape(s, encodeQueryComponent)`: `%XX`
becomes the byte `XX`, `+` becomes a space. -/
def unescapeBytes : GoString → GoString
  | [] => []
  | c :: s =>
    if c = 37 then
      match s with
      | a :: b :: t => Fin.ofNat (unhex a * 16 + unhex b) :: unescapeBytes t
      | _ => []
    else if c = 43 then 32 :: unescapeBytes s
    else c :: unescapeBytes s

/-- Go `url.QueryUnescape`; `none` stands for the `EscapeError`. -/
def QueryUnescape (s : GoString) : Option GoString :=
  if unescapeOK s then some (unescapeBytes s) else none

/-- A Go `map[string][]string` (`url.Values`, `http.Header`): an association
list in which a key occurs once.  The order of the entries is the order in which
`range` happens to visit the map. -/
abbrev StringMap := List (GoString × List GoString)

/-- The entry of `key` in a Go map, `none` when the key is absent. -/
def mapLookup : StringMap → GoString → Option (List GoString)
  | [], _ => none
  | (k, vs) :: m, key => if k = key then some vs else mapLookup m key

/-- The Go map read `m[key]`: the nil slice when the key is absent. -/
def mapGet (m : StringMap) (key : GoString) : List GoString :=
  match mapLookup m key with
  | some vs => vs
  | none => []

/-- The Go map write `m[key] = vs`. -/
def mapSet : StringMap → GoString → List GoString → StringMap
  | [], key, vs => [(key, vs)]
  | (k, old) :: m, key, vs =>
    if k = key then (key, vs) :: m else (k, old) :: mapSet m key vs

/-- Go `url.Values`. -/
abbrev Values := StringMap

/-- Go `Values.Get`: the first value of the key, `""` if there is none. -/
def Values.Get (v : Values) (key : GoString) : GoString :=
  match mapGet v key with
  | [] => []
  | x :: _ => x

/-- Go `Values.Set`. -/
def Values.Set (v : Values) (key value : GoString) : Values := mapSet v key [value]

/-- The loop of Go `url.parseQuery` (Go 1.17 and later: a piece with a semicolon
is dropped).  `fuel` bounds the number of iterations; each iteration removes at
least one byte of `query`, so the length of the query is enough. -/
def parseQueryLoop : Nat → Values → GoString → Values
  | 0, m, _ => m
  | fuel + 1, m, query =>
    if query = [] then m
    else
      let key := (Cut query 38).1
      let query := (Cut query 38).2
      if key.contains 59 then parseQueryLoop fuel m query
      else if key = [] then parseQueryLoop fuel m query
      else
        let value := (Cut key 61).2
        let key := (Cut key 61).1
        match QueryUnescape key with
        | none => parseQueryLoop fuel m query
        | some key =>
          match QueryUnescape value with
          | none => parseQueryLoop fuel m query
          | some value => parseQueryLoop fuel (mapSet m key (mapGet m key ++ [value])) query

/-- Go `url.ParseQuery`, with the error dropped as `URL.Query` does. -/
def ParseQuery (query : GoString) : Values := parseQueryLoop query.length [] query

/-- Go's order `<` on strings: bytewise lexicographic. -/
def strLt : GoString → GoString → Bool
  | [], [] => false
  | [], _ :: _ => true
  | _ :: _, [] => false
  | a :: s, b :: t => a.val < b.val || (a = b && strLt s t)

/-- Insertion of a key into a sorted list of keys. -/
def insertKey (k : GoString) : List GoString → List GoString
  | [] => [k]
  | x :: xs => if strLt x k then x :: insertKey k xs else k :: x :: xs

/-- Go `slices.Sort` on a list of strings. -/
def sortKeys : List GoString → List GoString
  | [] => []
  | k :: ks => insertKey k (sortKeys ks)

/-- Go `Values.Encode`: `key=value` pairs, escaped, joined by `&`, the keys in
sorted order. -/
def Values.Encode (v : Values) : GoString :=
  if v.length = 0 then []
  else
    (sortKeys (v.map Prod.fst)).foldl
      (fun buf k =>
        (mapGet v k).foldl
          (fun buf value =>
            (if buf.length > 0 then buf ++ [38] else buf) ++ QueryEscape k ++ [61] ++
              QueryEscape value)
          buf)
      []

/-! ## `net/textproto` and `net/http`: header maps -/

/-- Go `textproto.validHeaderFieldByte`: the token characters of RFC 7230. -/
def validHeaderFieldByte (c : Byte) : Bool :=
  (97 ≤ c.val && c.val ≤ 122) || (65 ≤ c.val && c.val ≤ 90) || (48 ≤ c.val && c.val ≤ 57) ||
  c = 33 || c = 35 || c = 36 || c = 37 || c = 38 || c = 39 || c = 42 || c = 43 || c = 45 ||
  c = 46 || c = 94 || c = 95 || c = 96 || c = 124 || c = 126

/-- The rewriting loop of Go `textproto.canonicalMIMEHeaderKey`: upper case for
the first letter and for a letter after a dash, lower case for the others. -/
def canonLoop : Bool → GoString → GoString
  | _, [] => []
  | upper, c :: cs =>
    let c1 : Byte :=
      if upper && (97 ≤ c.val && c.val ≤ 122) then Fin.ofNat (c.val - 32)
      else if !upper && (65 ≤ c.val && c.val ≤ 90) then Fin.ofNat (c.val + 32)
      else c
    c1 :: canonLoop (c1 = 45) cs

/-- The first loop of Go `textproto.canonicalMIMEHeaderKey`: `none` when a byte
is neither a token character nor a space, else whether a space was seen. -/
def canonScan : Bool → GoString → Option Bool
  | noCanon, [] => some noCanon
  | noCanon, c :: cs =>
    if validHeaderFieldByte c then canonScan noCanon cs
    else if c = 32 then canonScan true cs
    else none

/-- Go `textproto.canonicalMIMEHeaderKey` (the string it returns): the key
unchanged when it does not look like a header key, canonical otherwise.  The
final lookup in `commonHeader` returns an equal string and is left out. -/
def canonicalMIMEHeaderKey (a : GoString) : GoString :=
  match canonScan false a with
  | none => a
  | some true => a
  | some false => canonLoop true a

/-- The quick check of Go `textproto.CanonicalMIMEHeaderKey` over the rest of
the key `s`. -/
def canonQuick (s : GoString) : Bool → GoString → GoString
  | _, [] => s
  | upper, c :: cs =>
    if !validHeaderFieldByte c then s
    else if upper && (97 ≤ c.val && c.val ≤ 122) then canonicalMIMEHeaderKey s
    else if !upper && (65 ≤ c.val && c.val ≤ 90) then canonicalMIMEHeaderKey s
    else canonQuick s (c = 45) cs

/-- Go `textproto.CanonicalMIMEHeaderKey`. -/
def CanonicalMIMEHeaderKey (s : GoString) : GoString := canonQuick s true s

/-- Go `http.Header`. -/
abbrev Header := StringMap

/-- Go `Header.Get`: the first value of the canonical key, `""` if none. -/
def Header.Get (h : Header) (key : GoString) : GoString :=
  match mapGet h (CanonicalMIMEHeaderKey key) with
  | [] => []
  | x :: _ => x

/-- Go `Header.Set`: replaces the values of the canonical key by `value`. -/
def Header.Set (h : Header) (key value : GoString) : Header :=
  mapSet h (CanonicalMIMEHeaderKey key) [value]

/-- Go `Header.Add`: appends `value` to the values of the canonical key. -/
def Header.Add (h : Header) (key value : GoString) : Header :=
  mapSet h (CanonicalMIMEHeaderKey key) (mapGet h (CanonicalMIMEHeaderKey key) ++ [value])

/-! ## `float64` and `fmt`: the numbers of the access log -/

/-- Rounding of the non-negative fraction `a / b` to the nearest integer, ties
to even. -/
def roundHalfEven (a b : Nat) : Nat :=
  let q := a / b
  let r := a % b
  if 2 * r < b then q
  else if 2 * r > b then q + 1
  else if q % 2 = 0 then q else q + 1

/-- Position of the highest set bit: `2 ^ log2 n ≤ n < 2 ^ (log2 n + 1)` for
`n > 0`.  The first argument of the loop bounds the number of halvings. -/
def log2Loop : Nat → Nat → Nat
  | 0, _ => 0
  | fuel + 1, n => if n < 2 then 0 else log2Loop fuel (n / 2) + 1

/-- Position of the highest set bit of `n`. -/
def log2 (n : Nat) : Nat := log2Loop n n

/-- A finite non-negative `float64`, kept as the fraction it stands for; `den` is
a power of two. -/
structure Float64 where
  num : Nat
  den : Nat
deriving DecidableEq, Repr

/-- The `float64` nearest to `a / b`, ties to even (IEEE 754 binary64 with its 53
bit significand; the values of the access log lie in the normal range). -/
def nearestFloat64 (a b : Nat) : Float64 :=
  if a = 0 ∨ b = 0 then ⟨0, 1⟩
  else
    let la := log2 a
    let lb := log2 b
    -- `e` is the exponent of `a / b`: `2 ^ e ≤ a / b < 2 ^ (e + 1)`
    let e : Int := if b * 2 ^ la ≤ a * 2 ^ lb then (la : Int) - lb else (la : Int) - lb - 1
    if e ≤ 52 then
      let s := (52 - e).toNat
      ⟨roundHalfEven (a * 2 ^ s) b, 2 ^ s⟩
    else
      let s := (e - 52).toNat
      ⟨roundHalfEven a (b * 2 ^ s) * 2 ^ s, 1⟩

/-- The Go conversion `float64(n)` of a non-negative integer. -/
def float64 (n : Nat) : Float64 := nearestFloat64 n 1

/-- The Go division `x / c` of a `float64` by the constant `c`, a small
integer. -/
def Float64.div (x : Float64) (c : Nat) : Float64 := nearestFloat64 x.num (x.den * c)

/-- Decimal digits of a natural number, most significant first. -/
def natDigits (n : Nat) : GoString := (Nat.toDigits 10 n).map (fun c => Fin.ofNat c.toNat)

/-- The last `w` decimal digits of `v`, with leading zeros. -/
def fracDigits : Nat → Nat → GoString
  | 0, _ => []
  | w + 1, v => fracDigits w (v / 10) ++ [Fin.ofNat (48 + v % 10)]

/-- The verb `%.<prec>f` of Go `fmt` on a non-negative `float64`: the exact value
rounded to `prec` decimals (ties to even), printed as integer part, point and
`prec` digits. -/
def formatF (prec : Nat) (x : Float64) : GoString :=
  let scaled := roundHalfEven (x.num * 10 ^ prec) x.den
  natDigits (scaled / 10 ^ prec) ++ (if prec = 0 then [] else 46 :: fracDigits prec (scaled % 10 ^ prec))

/-- The verb `%d` of Go `fmt`. -/
def formatD (n : Int) : GoString :=
  if n < 0 then 45 :: natDigits n.natAbs else natDigits n.natAbs

/-! ## The relay handler -/

/-- The command-line flags of `main.go`. -/
structure Config where
  port : Int
  timeout : Int
  userAgent : GoString
  logRequests : Bool
deriving DecidableEq, Repr

/-- The inbound `*http.Request`, as far as the handler reads it. -/
structure Request where
  Method : GoString
  Path : GoString
  RawQuery : GoString
  Header : Header
  Body : GoString
deriving DecidableEq, Repr

/-- The outbound request: the result of `http.NewRequest(r.Method, targetURL,
r.Body)` with the header set the handler fills in. -/
structure OutRequest where
  Method : GoString
  URL : GoString
  Header : Header
  Body : GoString
deriving DecidableEq, Repr

/-- The upstream `*http.Response`.  `Body` holds the bytes `io.Copy` moved to
the caller before it returned, `copyErr` the error it returned, if any. -/
structure UpstreamResponse where
  StatusCode : Int
  Header : Header
  Body : GoString
  copyErr : Option GoString
deriving DecidableEq, Repr

/-- The world outside the handler.  `newRequest method url` is the error text of
`http.NewRequest` (`none` on success), `clientDo req` the result of `client.Do`
(the error text, or the response), `elapsedMicros` the value of
`time.Since(startTime).Microseconds()` when the access log is written. -/
structure Env where
  newRequest : GoString → GoString → Option GoString
  clientDo : OutRequest → Except GoString UpstreamResponse
  elapsedMicros : Nat

/-- What one call of the handler leaves behind: the final status code written to
the `http.ResponseWriter` (`none` when no status line was written), the header
set and body sent with it, the messages the handler passed to `log.Printf`
(without the time stamp of the logger), the outbound request handed to
`client.Do`, if the handler got that far, the informational status codes sent
ahead of the final one, and the message of the run-time panic that ended the
handler, if one did. -/
structure Outcome where
  status : Option Int
  header : Header
  body : GoString
  log : List GoString
  outbound : Option OutRequest
  interim : List Int
  panic : Option GoString
deriving DecidableEq, Repr

/-- Go `http.Error` on a fresh response: plain-text content type, `nosniff`, the
status code, and the message followed by a newline. -/
def httpError (error : GoString) (code : Int) (outbound : Option OutRequest) : Outcome :=
  { status := some code
    header :=
      Header.Set
        (Header.Set [] (utf8 "Content-Type") (utf8 "text/plain; charset=utf-8"))
        (utf8 "X-Content-Type-Options") (utf8 "nosniff")
    body := error ++ [10]
    log := []
    outbound := outbound
    interim := []
    panic := none }

/-- What `w.WriteHeader(code)` does with its argument. -/
inductive WriteHeaderKind where
  | invalid
  | informational
  | final
deriving DecidableEq, Repr

/-- Go `(*response).WriteHeader` (Go 1.19 and later) by its argument:
`checkWriteHeaderCode` panics for a code below 100 or above 999; a code from 100
to 199 other than 101 is sent at once as an informational response and leaves
the final status open; every other code becomes the final status.  (The Go
client delivers the codes 0 to 999 except the informational ones, which it
consumes itself.) -/
def writeHeaderKind (code : Int) : WriteHeaderKind :=
  if code < 100 ∨ code > 999 then WriteHeaderKind.invalid
  else if code ≤ 199 ∧ code ≠ 101 then WriteHeaderKind.informational
  else WriteHeaderKind.final

/-- Go `r.URL.Query()`. -/
def Request.Query (r : Request) : Values := ParseQuery r.RawQuery

/-- The body of the loop over `headerPairs` in `proxyHandler`. -/
def customHeaderPair (h : Header) (pair : GoString) : Header :=
  match SplitN pair 58 2 with
  | [p0, p1] =>
    let key := TrimSpace p0
    let value := TrimSpace p1
    if key ≠ [] ∧ value ≠ [] then h.Set key value else h
  | _ => h

/-- The custom-header step of `proxyHandler`: `customHeaders` is the value of
the query parameter `headers`. -/
def customHeaders (h : Header) (customHeaders : GoString) : Header :=
  if customHeaders ≠ [] then (Split customHeaders 44).foldl customHeaderPair h else h

/-- The header set `proxyHandler` puts on the outbound request, which
`http.NewRequest` creates with an empty header map. -/
def outboundHeader (cfg : Config) (r : Request) : Header :=
  let h := Header.Set [] (utf8 "User-Agent") cfg.userAgent
  let h :=
    if r.Header.Get (utf8 "Referer") ≠ [] then h.Set (utf8 "Referer") (r.Header.Get (utf8 "Referer"))
    else h
  customHeaders h (r.Query.Get (utf8 "headers"))

/-- The outbound request of `proxyHandler`: `http.NewRequest(r.Method,
targetURL, r.Body)` with the header set filled in. -/
def outboundRequest (cfg : Config) (r : Request) : OutRequest :=
  { Method := r.Method
    URL := r.Query.Get (utf8 "url")
    Header := outboundHeader cfg r
    Body := r.Body }

/-- The loop that copies the response headers in `proxyHandler`. -/
def copyHeaders (w : Header) (respHeader : Header) : Header :=
  respHeader.foldl (fun w kv => kv.2.foldl (fun w value => Header.Add w kv.1 value) w) w

/-- The access-log message of `proxyHandler`, format
`"请求: %s [%s] 状态: %d 大小: %.2f KB 耗时: %.2f ms"`. -/
def accessLogLine (targetURL method : GoString) (statusCode : Int) (bytesCopied micros : Nat) :
    GoString :=
  utf8 "请求: " ++ targetURL ++ utf8 " [" ++ method ++ utf8 "] 状态: " ++ formatD statusCode ++
    utf8 " 大小: " ++ formatF 2 ((float64 bytesCopied).div 1024) ++ utf8 " KB 耗时: " ++
    formatF 2 ((float64 micros).div 1000) ++ utf8 " ms"

/-- The rest of `proxyHandler` once the status line is settled: the copied
headers and `finalStatus` go out, `io.Copy` moves the body, and the handler logs
the copy error or, when logging is enabled, the access-log line. -/
def relayResponse (cfg : Config) (env : Env) (r : Request) (resp : UpstreamResponse)
    (finalStatus : Int) (interim : List Int) : Outcome :=
  { status := some finalStatus
    header := copyHeaders [] resp.Header
    body := resp.Body
    log :=
      match resp.copyErr with
      | some err => [utf8 "传输响应失败: " ++ err]
      | none =>
        if cfg.logRequests then
          [accessLogLine (r.Query.Get (utf8 "url")) r.Method resp.StatusCode resp.Body.length
            env.elapsedMicros]
        else []
    outbound := some (outboundRequest cfg r)
    interim := interim
    panic := none }

/-- The function `proxyHandler` of `main.go`.  When `w.WriteHeader` panics, the
handler ends there: nothing has been sent, the body is not copied and the
handler logs nothing (the server recovers the panic and closes the connection).
After an informational code the first write of the body, or the end of the
handler, sends the status 200. -/
def proxyHandler (cfg : Config) (env : Env) (r : Request) : Outcome :=
  let targetURL := r.Query.Get (utf8 "url")
  if targetURL = [] then httpError (utf8 "缺少url参数") 400 none
  else
    match env.newRequest r.Method targetURL with
    | some err => httpError (utf8 "创建请求失败: " ++ err) 500 none
    | none =>
      let req := outboundRequest cfg r
      match env.clientDo req with
      | .error err => httpError (utf8 "请求失败: " ++ err) 500 (some req)
      | .ok resp =>
        match writeHeaderKind resp.StatusCode with
        | WriteHeaderKind.invalid =>
          { status := none, header := [], body := [], log := [], outbound := some req,
            interim := [],
            panic := some (utf8 "invalid WriteHeader code " ++ formatD resp.StatusCode) }
        | WriteHeaderKind.informational => relayResponse cfg env r resp 200 [resp.StatusCode]
        | WriteHeaderKind.final => relayResponse cfg env r resp resp.StatusCode []

/-- The function `simplifiedProxyHandler` of `main.go`.  `none` is the run-time
panic of the slice expression `r.URL.Path[len("/"):]` on an empty path. -/
def simplifiedProxyHandler (cfg : Config) (env : Env) (r : Request) : Option Outcome :=
  match r.Path with
  | [] => none
  | _ :: urlPath =>
    if urlPath = [] then some (httpError (utf8 "无效的URL路径") 400 none)
    else
      let urlPath :=
        if !HasPrefix urlPath (utf8 "http://") && !HasPrefix urlPath (utf8 "https://") then
          utf8 "https://" ++ urlPath
        else urlPath
      let q := r.Query
      let q := q.Set (utf8 "url") urlPath
      some (proxyHandler cfg env { r with RawQuery := q.Encode })

/-! ## The words of the specification, and sample requests -/

/-- The text of a piece before its first colon (the whole piece when it has no colon). -/
def beforeColon (p : GoString) : GoString := p.takeWhile (fun c => c != 58)

/-- The text of a piece after its first colon. -/
def afterColon (p : GoString) : GoString := (p.dropWhile (fun c => c != 58)).drop 1

/-- A piece of the `headers` parameter is valid when it contains a colon and
both the text before its first colon and the text after it are non-empty after
trimming white space. -/
def validPiece (p : GoString) : Bool :=
  decide (58 ∈ p) && decide (TrimSpace (beforeColon p) ≠ []) && decide (TrimSpace (afterColon p) ≠ [])

/-- ASCII lower case of a byte. -/
def toLowerByte (c : Byte) : Byte := if 65 ≤ c.val && c.val ≤ 90 then Fin.ofNat (c.val + 32) else c

/-- Equality of two strings ignoring ASCII case. -/
def equalFold (a b : GoString) : Bool := a.map toLowerByte = b.map toLowerByte

/-- One step of `canonLoop` on a byte. -/
def canonByte (upper : Bool) (c : Byte) : Byte :=
  if upper && (97 ≤ c.val && c.val ≤ 122) then Fin.ofNat (c.val - 32)
  else if !upper && (65 ≤ c.val && c.val ≤ 90) then Fin.ofNat (c.val + 32)
  else c

/-- The keys of a map. -/
def mapKeys (m : StringMap) : List GoString := m.map Prod.fst

/-- The valid pairs of the `headers` parameter, in order: the trimmed key and
the trimmed value of every valid comma-separated piece. -/
def validPairs (customHeaders : GoString) : List (GoString × GoString) :=
  ((Split customHeaders 44).filter validPiece).map
    (fun p => (TrimSpace (beforeColon p), TrimSpace (afterColon p)))

/-- Setting the pairs of a list one after the other on a header set. -/
def setAll (h : Header) (ps : List (GoString × GoString)) : Header :=
  ps.foldl (fun h p => Header.Set h p.1 p.2) h

/-- Go `strings.Join` for a one-byte separator. -/
def Join (sep : Byte) : List GoString → GoString
  | [] => []
  | [p] => p
  | p :: q :: ps => p ++ sep :: Join sep (q :: ps)

/-- Two header keys name the same header: equal ignoring ASCII case when the
first consists of token characters only, equal byte for byte otherwise. -/
def sameHeaderKey (k k' : GoString) : Bool :=
  if k.all validHeaderFieldByte then equalFold k k' else decide (k = k')

/-- A configuration with a short default User-Agent. -/
def demoConfig : Config := { port := 16524, timeout := 10, userAgent := utf8 "Mozilla/5.0", logRequests := true }

/-- An upstream that answers every request with `200`, two cookies and a
five-byte body, after 1234 microseconds. -/
def demoEnv : Env :=
  { newRequest := fun _ _ => none
    clientDo := fun _ =>
      .ok { StatusCode := 200, Header := [(utf8 "Set-Cookie", [utf8 "a=1", utf8 "b=2"])],
            Body := utf8 "hello", copyErr := none }
    elapsedMicros := 1234 }

/-- A query-form request whose `headers` parameter names `User-Agent`. -/
def uaOverrideRequest : Request :=
  { Method := utf8 "GET", Path := utf8 "/get",
    RawQuery := utf8 "url=http://example.com/a.jpg&headers=User-Agent:curl",
    Header := [(utf8 "User-Agent", [utf8 "Firefox"])], Body := [] }

/-- Dropping the ASCII white space at both ends of a string. -/
def trimAsciiSpace (s : GoString) : GoString :=
  (((s.dropWhile asciiSpace).reverse).dropWhile asciiSpace).reverse

/-- The outbound header set `proxyHandler` builds for a `GET /get` request with
the given raw query string and no headers of its own, under the configuration
`demoConfig`. -/
def outboundHeaderOf (rawQuery : GoString) : Option Header :=
  (proxyHandler demoConfig demoEnv
    { Method := utf8 "GET", Path := utf8 "/get", RawQuery := rawQuery, Header := [],
      Body := [] }).outbound.map OutRequest.Header

/-- A query-form request with two custom pairs whose keys hold a space and
differ in case only. -/
def mixedCaseRequest : Request :=
  { Method := utf8 "GET", Path := utf8 "/get",
    RawQuery := utf8 "url=http://example.com/a.jpg&headers=a+b:1,A+b:2",
    Header := [], Body := [] }

/-- A query-form request that carries a Referer and two custom pairs for the
same header. -/
def refererRequest : Request :=
  { Method := utf8 "GET", Path := utf8 "/get",
    RawQuery := utf8 "url=http://example.com/a.jpg&headers=referer:one,REFERER:two",
    Header := [(utf8 "Referer", [utf8 "https://caller.example/"])], Body := [] }

/-- The request `refererRequest` as another caller sends it: other cookies,
credentials and User-Agent, the same Referer and `headers` parameter. -/
def refererRequestOther : Request :=
  { Method := utf8 "POST", Path := utf8 "/get",
    RawQuery := utf8 "headers=referer:one,REFERER:two&url=http://other.example/b.png",
    Header := [(utf8 "Cookie", [utf8 "session=1"]), (utf8 "Authorization", [utf8 "Bearer x"]),
               (utf8 "User-Agent", [utf8 "curl/8.0"]),
               (utf8 "Referer", [utf8 "https://caller.example/"])],
    Body := utf8 "payload" }

/-- A query-form request whose `headers` parameter holds an invalid piece, the
piece `" x : y "` and a piece with two colons. -/
def spacedPieceRequest : Request :=
  { Method := utf8 "GET", Path := utf8 "/get",
    RawQuery := utf8 "url=http://example.com/a.jpg&headers=Bogus,+x+:+y+,Accept:a:b",
    Header := [], Body := [] }

/-- An upstream that answers every request with `400`. -/
def badRequestEnv : Env :=
  { newRequest := fun _ _ => none
    clientDo := fun _ =>
      .ok { StatusCode := 400, Header := [], Body := utf8 "bad request", copyErr := none }
    elapsedMicros := 1234 }

/-- A client that refuses every request, as the transport of `net/http` does
with a request whose header map holds a key that is not a token. -/
def refusingEnv : Env :=
  { newRequest := fun _ _ => none
    clientDo := fun _ => .error (utf8 "net/http: invalid header field name")
    elapsedMicros := 1234 }

/-- An upstream whose body breaks off while it is copied to the caller. -/
def brokenCopyEnv : Env :=
  { newRequest := fun _ _ => none
    clientDo := fun _ =>
      .ok { StatusCode := 200, Header := [], Body := utf8 "hel",
            copyErr := some (utf8 "unexpected EOF") }
    elapsedMicros := 1234 }

/-- The ASCII digit of `n % 10`. -/
def digitByte (n : Nat) : Byte := Fin.ofNat (48 + n % 10)

/-- The hundredths a `float64` is printed with by `%.2f`: the value times 100,
rounded to the nearest integer, ties to even. -/
def hundredths (x : Float64) : Nat := roundHalfEven (x.num * 100) x.den

/-- The configuration `demoConfig` with the access log switched off. -/
def quietConfig : Config := { demoConfig with logRequests := false }

/-- The `key=value` piece `Values.Encode` writes for one value of a key. -/
def encodePiece (k v : GoString) : GoString := QueryEscape k ++ 61 :: QueryEscape v

/-- The step of `url.parseQuery` that records one pair. -/
def addPair (m : Values) (kv : GoString × GoString) : Values :=
  mapSet m kv.1 (mapGet m kv.1 ++ [kv.2])

/-- The pieces after the first one in the output of `Values.Encode`: each is
preceded by `&`. -/
def joinRest (ps : List (GoString × GoString)) : GoString :=
  ps.flatMap (fun kv => 38 :: encodePiece kv.1 kv.2)

/-- The pairs `Values.Encode` writes, in order: for every key of `keys`, its
values in the map. -/
def encodePairs (keys : List GoString) (v : Values) : List (GoString × GoString) :=
  keys.flatMap (fun k => (mapGet v k).map (fun value => (k, value)))

/-- The output of `Values.Encode` for a list of pairs. -/
def encodeList : List (GoString × GoString) → GoString
  | [] => []
  | p :: ps => encodePiece p.1 p.2 ++ joinRest ps

/-- One write of the inner loop of `Values.Encode`. -/
def encodeStep (buf : GoString) (kv : GoString × GoString) : GoString :=
  (if buf.length > 0 then buf ++ [38] else buf) ++ QueryEscape kv.1 ++ [61] ++ QueryEscape kv.2

/-- The target URL of the path form: the path without its leading slash when
that starts with `http://` or `https://`, and with `https://` put in front of it
otherwise. -/
def pathTarget (u : GoString) : GoString :=
  if List.IsPrefix (utf8 "http://") u ∨ List.IsPrefix (utf8 "https://") u then u
  else utf8 "https://" ++ u

/-- The request `simplifiedProxyHandler` hands to `proxyHandler`: the query is
parsed, `url` is set to the target, and the result is encoded again. -/
def pathFormRequest (r : Request) (u : GoString) : Request :=
  { r with RawQuery := (r.Query.Set (utf8 "url") (pathTarget u)).Encode }

/-- A path-form request without a scheme, with a `url` parameter of its own and
a `headers` parameter. -/
def pathRequest : Request :=
  { Method := utf8 "GET", Path := utf8 "/example.com/a.jpg",
    RawQuery := utf8 "url=http://evil.example/&headers=Referer:abc,Cache-Control:no-cache&w=1&w=2",
    Header := [], Body := [] }

/-! ## Properties -/

theorem indexByte_eq_none {sep : Byte} {s : GoString} : indexByte sep s = none ↔ sep ∉ s := by
  induction s with
  | nil => simp [indexByte]
  | cons c cs ih =>
    by_cases h : c = sep
    · simp [indexByte, h]
    · simp [indexByte, h, ih, Ne.symm h]

theorem indexByte_eq_some {sep : Byte} {s : GoString} {m : Nat} (h : indexByte sep s = some m) :
    s.take m = s.takeWhile (fun c => c != sep) ∧
      s.drop (m + 1) = (s.dropWhile (fun c => c != sep)).drop 1 := by
  induction s generalizing m with
  | nil => simp [indexByte] at h
  | cons c cs ih =>
    by_cases hc : c = sep
    · simp [indexByte, hc] at h
      subst h
      simp [hc]
    · simp only [indexByte, hc, if_false, Option.map_eq_some'] at h
      obtain ⟨m', hm', rfl⟩ := h
      have := ih hm'
      simp [hc, this.1, this.2]

theorem SplitN_colon (p : GoString) :
    SplitN p 58 2 = if 58 ∈ p then [beforeColon p, afterColon p] else [p] := by
  cases p with
  | nil => simp [SplitN, genSplit, genSplitLoop]
  | cons c cs =>
    have h2 : SplitN (c :: cs) 58 2 = genSplitLoop 58 1 (c :: cs) := by
      have hlen : ¬ (cs.length + 1 + 1 < 2) := by omega
      simp [SplitN, genSplit, hlen]
    rw [h2]
    unfold genSplitLoop
    cases hi : indexByte 58 (c :: cs) with
    | none =>
      have := indexByte_eq_none.1 hi
      simp [this]
    | some m =>
      have hmem : (58 : Byte) ∈ c :: cs := by
        by_contra hn
        rw [indexByte_eq_none.2 hn] at hi
        cases hi
      have := indexByte_eq_some hi
      simp only [genSplitLoop, if_pos hmem, beforeColon, afterColon, this.1, this.2]

theorem customHeaderPair_eq (h : Header) (p : GoString) :
    customHeaderPair h p =
      if validPiece p then h.Set (TrimSpace (beforeColon p)) (TrimSpace (afterColon p)) else h := by
  unfold customHeaderPair
  rw [SplitN_colon]
  by_cases hc : (58 : Byte) ∈ p
  · by_cases h1 : TrimSpace (beforeColon p) = [] <;> by_cases h2 : TrimSpace (afterColon p) = [] <;>
      simp [validPiece, hc, h1, h2]
  · simp [validPiece, hc]

theorem canonLoop_cons (u : Bool) (c : Byte) (cs : GoString) :
    canonLoop u (c :: cs) = canonByte u c :: canonLoop (canonByte u c = 45) cs := rfl

set_option maxRecDepth 100000 in
theorem canonByte_valid : ∀ (u : Bool) (c : Byte),
    validHeaderFieldByte (canonByte u c) = validHeaderFieldByte c := by decide

set_option maxRecDepth 100000 in
theorem toLower_canonByte : ∀ (u : Bool) (c : Byte), toLowerByte (canonByte u c) = toLowerByte c := by
  decide

set_option maxRecDepth 100000 in
theorem canonByte_toLower : ∀ (u : Bool) (c : Byte), canonByte u (toLowerByte c) = canonByte u c := by
  decide

set_option maxRecDepth 100000 in
theorem toLower_valid : ∀ (c : Byte), validHeaderFieldByte (toLowerByte c) = validHeaderFieldByte c := by
  decide

theorem canonLoop_eq_iff (u : Bool) (a b : GoString) :
    canonLoop u a = canonLoop u b ↔ a.map toLowerByte = b.map toLowerByte := by
  induction a generalizing b u with
  | nil => cases b <;> simp [canonLoop]
  | cons c cs ih =>
    cases b with
    | nil => simp [canonLoop]
    | cons d ds =>
      rw [canonLoop_cons, canonLoop_cons]
      simp only [List.map_cons, List.cons.injEq]
      constructor
      · rintro ⟨h1, h2⟩
        have h3 : toLowerByte c = toLowerByte d := by
          rw [← toLower_canonByte u c, h1, toLower_canonByte]
        refine ⟨h3, ?_⟩
        rw [h1] at h2
        exact (ih _ _).1 h2
      · rintro ⟨h1, h2⟩
        have h3 : canonByte u c = canonByte u d := by
          rw [← canonByte_toLower u c, h1, canonByte_toLower]
        refine ⟨h3, ?_⟩
        rw [h3]
        exact (ih _ _).2 h2

theorem canonLoop_all_valid (u : Bool) (s : GoString) :
    (canonLoop u s).all validHeaderFieldByte = s.all validHeaderFieldByte := by
  induction s generalizing u with
  | nil => rfl
  | cons c cs ih => rw [canonLoop_cons, List.all_cons, List.all_cons, canonByte_valid, ih]

theorem map_toLower_all_valid (s : GoString) :
    (s.map toLowerByte).all validHeaderFieldByte = s.all validHeaderFieldByte := by
  induction s with
  | nil => rfl
  | cons c cs ih => rw [List.map_cons, List.all_cons, List.all_cons, toLower_valid, ih]

theorem canonScan_eq_some_false (b : Bool) (s : GoString) :
    canonScan b s = some false ↔ (b = false ∧ s.all validHeaderFieldByte = true) := by
  induction s generalizing b with
  | nil => simp [canonScan]
  | cons c cs ih =>
    by_cases hv : validHeaderFieldByte c = true
    · simp [canonScan, hv, ih]
    · by_cases h32 : c = 32
      · subst h32
        have h0 : validHeaderFieldByte 32 = false := by decide
        simp [canonScan, h0, ih]
      · simp [canonScan, hv, h32]

theorem canonicalMIMEHeaderKey_eq (s : GoString) :
    canonicalMIMEHeaderKey s = if s.all validHeaderFieldByte then canonLoop true s else s := by
  unfold canonicalMIMEHeaderKey
  have h := canonScan_eq_some_false false s
  cases hs : canonScan false s with
  | none =>
    rw [hs] at h
    have : ¬ s.all validHeaderFieldByte = true := fun hv => by simpa using h.2 ⟨rfl, hv⟩
    simp [this]
  | some b =>
    rw [hs] at h
    cases b with
    | true =>
      have : ¬ s.all validHeaderFieldByte = true := fun hv => by simpa using h.2 ⟨rfl, hv⟩
      simp [this]
    | false =>
      have : s.all validHeaderFieldByte = true := (h.1 rfl).2
      simp [this]

theorem canonQuick_cases (s : GoString) (u : Bool) (cs : GoString) :
    canonQuick s u cs = s ∨ canonQuick s u cs = canonicalMIMEHeaderKey s := by
  induction cs generalizing u with
  | nil => left; rfl
  | cons c cs ih =>
    unfold canonQuick
    split
    · left; rfl
    · split
      · right; rfl
      · split
        · right; rfl
        · exact ih _

theorem canonQuick_valid (s : GoString) (u : Bool) (cs : GoString)
    (hv : cs.all validHeaderFieldByte = true) :
    (canonQuick s u cs = s ∧ canonLoop u cs = cs) ∨ canonQuick s u cs = canonicalMIMEHeaderKey s := by
  induction cs generalizing u with
  | nil => left; exact ⟨rfl, rfl⟩
  | cons c cs ih =>
    rw [List.all_cons, Bool.and_eq_true] at hv
    unfold canonQuick
    rw [if_neg (by simp [hv.1])]
    split
    · right; rfl
    · split
      · right; rfl
      · rename_i h1 h2
        have hc : canonByte u c = c := by simp [canonByte, h1, h2]
        rcases ih (decide (c = 45)) hv.2 with h | h
        · left
          refine ⟨h.1, ?_⟩
          rw [canonLoop_cons, hc, h.2]
        · right; exact h

theorem CanonicalMIMEHeaderKey_eq (s : GoString) :
    CanonicalMIMEHeaderKey s = if s.all validHeaderFieldByte then canonLoop true s else s := by
  unfold CanonicalMIMEHeaderKey
  by_cases hv : s.all validHeaderFieldByte = true
  · rw [if_pos hv]
    rcases canonQuick_valid s true s hv with h | h
    · rw [h.1]; exact h.2.symm
    · rw [h, canonicalMIMEHeaderKey_eq, if_pos hv]
  · rw [if_neg hv]
    rcases canonQuick_cases s true s with h | h
    · exact h
    · rw [h, canonicalMIMEHeaderKey_eq, if_neg hv]

theorem canon_eq_iff (a b : GoString) :
    CanonicalMIMEHeaderKey a = CanonicalMIMEHeaderKey b ↔
      (if a.all validHeaderFieldByte then equalFold a b = true else a = b) := by
  rw [CanonicalMIMEHeaderKey_eq, CanonicalMIMEHeaderKey_eq]
  by_cases ha : a.all validHeaderFieldByte = true <;> by_cases hb : b.all validHeaderFieldByte = true
  · simp only [if_pos ha, if_pos hb, equalFold, decide_eq_true_eq]
    exact canonLoop_eq_iff true a b
  · simp only [if_pos ha, if_neg hb, equalFold, decide_eq_true_eq]
    constructor
    · intro h
      exact absurd (by rw [← h, canonLoop_all_valid]; exact ha) hb
    · intro h
      exact absurd (by rw [← map_toLower_all_valid, ← h, map_toLower_all_valid]; exact ha) hb
  · simp only [if_neg ha, if_pos hb]
    constructor
    · intro h
      exact absurd (by rw [h, canonLoop_all_valid]; exact hb) ha
    · intro h
      exact absurd (h ▸ hb) ha
  · simp only [if_neg ha, if_neg hb]

theorem map_toLower_canonLoop (u : Bool) (s : GoString) :
    (canonLoop u s).map toLowerByte = s.map toLowerByte := by
  induction s generalizing u with
  | nil => rfl
  | cons c cs ih => rw [canonLoop_cons, List.map_cons, List.map_cons, toLower_canonByte, ih]

theorem canon_idem (s : GoString) :
    CanonicalMIMEHeaderKey (CanonicalMIMEHeaderKey s) = CanonicalMIMEHeaderKey s := by
  rw [canon_eq_iff]
  by_cases hv : s.all validHeaderFieldByte = true
  · have h1 : CanonicalMIMEHeaderKey s = canonLoop true s := by
      rw [CanonicalMIMEHeaderKey_eq, if_pos hv]
    rw [h1, canonLoop_all_valid, if_pos hv]
    simp only [equalFold, decide_eq_true_eq]
    exact map_toLower_canonLoop true s
  · have h1 : CanonicalMIMEHeaderKey s = s := by rw [CanonicalMIMEHeaderKey_eq, if_neg hv]
    rw [h1, if_neg hv]

theorem mapLookup_mapSet (m : StringMap) (k : GoString) (vs : List GoString) (k' : GoString) :
    mapLookup (mapSet m k vs) k' = if k' = k then some vs else mapLookup m k' := by
  induction m with
  | nil =>
    by_cases h : k' = k
    · simp [mapSet, mapLookup, h]
    · simp [mapSet, mapLookup, h, Ne.symm h]
  | cons e m ih =>
    obtain ⟨k0, v0⟩ := e
    by_cases h0 : k0 = k
    · subst h0
      by_cases h : k' = k0
      · simp [mapSet, mapLookup, h]
      · simp [mapSet, mapLookup, h, Ne.symm h]
    · by_cases h : k' = k
      · subst h
        simp [mapSet, mapLookup, h0, ih]
      · by_cases h1 : k0 = k'
        · simp [mapSet, mapLookup, h0, h1, h]
        · simp [mapSet, mapLookup, h0, h1, h, ih]

theorem mapGet_mapSet (m : StringMap) (k : GoString) (vs : List GoString) (k' : GoString) :
    mapGet (mapSet m k vs) k' = if k' = k then vs else mapGet m k' := by
  unfold mapGet
  rw [mapLookup_mapSet]
  by_cases h : k' = k <;> simp [h]

theorem mapLookup_eq_none {m : StringMap} {k : GoString} :
    mapLookup m k = none ↔ k ∉ mapKeys m := by
  induction m with
  | nil => simp [mapLookup, mapKeys]
  | cons e m ih =>
    obtain ⟨k0, v0⟩ := e
    by_cases h : k0 = k
    · simp [mapLookup, mapKeys, h]
    · simp only [mapLookup, if_neg h, ih, mapKeys, List.map_cons, List.mem_cons, not_or]
      exact ⟨fun hx => ⟨Ne.symm h, hx⟩, fun hx => hx.2⟩

theorem mem_mapKeys_mapSet (m : StringMap) (k : GoString) (vs : List GoString) (k' : GoString) :
    k' ∈ mapKeys (mapSet m k vs) ↔ k' = k ∨ k' ∈ mapKeys m := by
  have h1 := @mapLookup_eq_none (mapSet m k vs) k'
  have h2 := @mapLookup_eq_none m k'
  rw [mapLookup_mapSet] at h1
  by_cases h : k' = k
  · simp only [h, true_or, iff_true]
    by_contra hn
    have := h1.2 (h ▸ hn)
    simp [h] at this
  · simp only [if_neg h] at h1
    simp only [h, false_or]
    constructor
    · intro hx
      by_contra hn
      exact (h1.1 (h2.2 hn)) hx
    · intro hx
      by_contra hn
      exact (h2.1 (h1.2 hn)) hx

theorem mapKeys_mapSet_nodup (m : StringMap) (k : GoString) (vs : List GoString)
    (h : (mapKeys m).Nodup) : (mapKeys (mapSet m k vs)).Nodup := by
  induction m with
  | nil => simp [mapSet, mapKeys]
  | cons e m ih =>
    obtain ⟨k0, v0⟩ := e
    simp only [mapKeys, List.map_cons, List.nodup_cons] at h
    by_cases h0 : k0 = k
    · subst h0
      simp only [mapSet, if_true, mapKeys, List.map_cons, List.nodup_cons]
      exact h
    · simp only [mapSet, if_neg h0, mapKeys, List.map_cons, List.nodup_cons]
      refine ⟨?_, ih h.2⟩
      intro hx
      have := (mem_mapKeys_mapSet m k vs k0).1 hx
      rcases this with h1 | h1
      · exact h0 h1
      · exact h.1 h1

theorem setAll_append (h : Header) (ps qs : List (GoString × GoString)) :
    setAll h (ps ++ qs) = setAll (setAll h ps) qs := by
  simp [setAll, List.foldl_append]

/-- Last writer wins: after setting the pairs `ps` in order, the entry of a
canonical key is the single value of the last pair with that canonical key, and
the old entry when there is no such pair. -/
theorem mapLookup_setAll (h : Header) (ps : List (GoString × GoString)) (ck : GoString) :
    mapLookup (setAll h ps) ck =
      match (ps.filter (fun p => CanonicalMIMEHeaderKey p.1 = ck)).getLast? with
      | some p => some [p.2]
      | none => mapLookup h ck := by
  induction ps using List.reverseRecOn with
  | nil => simp [setAll]
  | append_singleton ps p ih =>
    rw [setAll_append]
    have hs : setAll (setAll h ps) [p] = Header.Set (setAll h ps) p.1 p.2 := rfl
    rw [hs, Header.Set, mapLookup_mapSet, List.filter_append]
    by_cases hk : CanonicalMIMEHeaderKey p.1 = ck
    · simp [hk]
    · simp [hk, Ne.symm hk, ih]

theorem customHeaders_eq (h : Header) (s : GoString) :
    customHeaders h s = setAll h (validPairs s) := by
  have key : ∀ (l : List GoString) (h : Header),
      l.foldl customHeaderPair h =
        setAll h ((l.filter validPiece).map
          (fun p => (TrimSpace (beforeColon p), TrimSpace (afterColon p)))) := by
    intro l
    induction l with
    | nil => intro h; rfl
    | cons p l ih =>
      intro h
      rw [List.foldl_cons, ih, customHeaderPair_eq]
      by_cases hv : validPiece p = true
      · simp [hv, setAll]
      · simp [hv]
  unfold customHeaders validPairs
  by_cases hs : s = []
  · subst hs
    have h0 : (Split [] 44).filter validPiece = [] := by decide
    simp [setAll, h0]
  · rw [if_pos hs, key]

theorem indexByte_split {sep : Byte} {s : GoString} {m : Nat} (h : indexByte sep s = some m) :
    s = s.take m ++ sep :: s.drop (m + 1) ∧ sep ∉ s.take m := by
  induction s generalizing m with
  | nil => simp [indexByte] at h
  | cons c cs ih =>
    by_cases hc : c = sep
    · simp [indexByte, hc] at h
      subst h
      simp [hc]
    · simp only [indexByte, hc, if_false, Option.map_eq_some'] at h
      obtain ⟨m', hm', rfl⟩ := h
      have := ih hm'
      refine ⟨?_, ?_⟩
      · simp only [List.take_succ_cons, List.drop_succ_cons, List.cons_append]
        rw [← this.1]
      · simp only [List.take_succ_cons, List.mem_cons, not_or]
        exact ⟨Ne.symm hc, this.2⟩

theorem genSplitLoop_ne_nil (sep : Byte) (k : Nat) (s : GoString) : genSplitLoop sep k s ≠ [] := by
  cases k with
  | zero => simp [genSplitLoop]
  | succ k =>
    unfold genSplitLoop
    split <;> simp

theorem Join_cons (sep : Byte) (p : GoString) (l : List GoString) (hl : l ≠ []) :
    Join sep (p :: l) = p ++ sep :: Join sep l := by
  cases l with
  | nil => exact absurd rfl hl
  | cons q ps => rfl

theorem genSplitLoop_spec (sep : Byte) (k : Nat) (s : GoString) (hk : s.count sep ≤ k) :
    Join sep (genSplitLoop sep k s) = s ∧ ∀ p ∈ genSplitLoop sep k s, sep ∉ p := by
  induction k generalizing s with
  | zero =>
    have h0 : sep ∉ s := by
      intro hmem
      have := List.count_pos_iff.2 hmem
      omega
    simp [genSplitLoop, Join, h0]
  | succ k ih =>
    unfold genSplitLoop
    cases hi : indexByte sep s with
    | none =>
      have h0 := indexByte_eq_none.1 hi
      simp [Join, h0]
    | some m =>
      have hs := indexByte_split hi
      have hcount : (s.drop (m + 1)).count sep ≤ k := by
        have h1 : s.count sep = (s.take m ++ sep :: s.drop (m + 1)).count sep := by rw [← hs.1]
        rw [List.count_append, List.count_cons_self, List.count_eq_zero_of_not_mem hs.2] at h1
        omega
      have := ih (s.drop (m + 1)) hcount
      simp only
      constructor
      · rw [Join_cons _ _ _ (genSplitLoop_ne_nil _ _ _), this.1]
        exact hs.1.symm
      · intro p hp
        rcases List.mem_cons.1 hp with h | h
        · rw [h]; exact hs.2
        · exact this.2 p h

/-- The pieces `strings.Split` returns hold no separator, and joined by the
separator they give the string back. -/
theorem Split_spec (s : GoString) (sep : Byte) :
    Join sep (Split s sep) = s ∧ ∀ p ∈ Split s sep, sep ∉ p := by
  have hc : s.count sep ≤ s.length := List.count_le_length sep s
  have h : Split s sep = genSplitLoop sep (s.count sep) s := by
    have h1 : ¬ (s.length + 1 < List.count sep s + 1) := by omega
    simp [Split, genSplit, countByte, h1]
  rw [h]
  exact genSplitLoop_spec sep _ s (le_refl _)

theorem proxyHandler_missing (cfg : Config) (env : Env) (r : Request)
    (h : r.Query.Get (utf8 "url") = []) :
    proxyHandler cfg env r = httpError (utf8 "缺少url参数") 400 none := by
  unfold proxyHandler
  simp [h]

theorem proxyHandler_build_error (cfg : Config) (env : Env) (r : Request) (e : GoString)
    (h : r.Query.Get (utf8 "url") ≠ [])
    (hn : env.newRequest r.Method (r.Query.Get (utf8 "url")) = some e) :
    proxyHandler cfg env r = httpError (utf8 "创建请求失败: " ++ e) 500 none := by
  unfold proxyHandler
  simp [h, hn]

theorem proxyHandler_upstream_error (cfg : Config) (env : Env) (r : Request) (e : GoString)
    (h : r.Query.Get (utf8 "url") ≠ [])
    (hn : env.newRequest r.Method (r.Query.Get (utf8 "url")) = none)
    (hd : env.clientDo (outboundRequest cfg r) = .error e) :
    proxyHandler cfg env r =
      httpError (utf8 "请求失败: " ++ e) 500 (some (outboundRequest cfg r)) := by
  unfold proxyHandler
  simp [h, hn, hd]

theorem proxyHandler_ok (cfg : Config) (env : Env) (r : Request) (resp : UpstreamResponse)
    (h : r.Query.Get (utf8 "url") ≠ [])
    (hn : env.newRequest r.Method (r.Query.Get (utf8 "url")) = none)
    (hd : env.clientDo (outboundRequest cfg r) = .ok resp) :
    proxyHandler cfg env r =
      match writeHeaderKind resp.StatusCode with
      | WriteHeaderKind.invalid =>
        { status := none, header := [], body := [], log := [],
          outbound := some (outboundRequest cfg r), interim := [],
          panic := some (utf8 "invalid WriteHeader code " ++ formatD resp.StatusCode) }
      | WriteHeaderKind.informational => relayResponse cfg env r resp 200 [resp.StatusCode]
      | WriteHeaderKind.final => relayResponse cfg env r resp resp.StatusCode [] := by
  unfold proxyHandler
  simp only [h, hn, hd, if_false]

theorem writeHeaderKind_invalid (code : Int) (h : code < 100 ∨ code > 999) :
    writeHeaderKind code = WriteHeaderKind.invalid := by
  unfold writeHeaderKind
  simp [h]

theorem writeHeaderKind_informational (code : Int)
    (h : 100 ≤ code ∧ code ≤ 199 ∧ code ≠ 101) :
    writeHeaderKind code = WriteHeaderKind.informational := by
  unfold writeHeaderKind
  have h1 : ¬ (code < 100 ∨ code > 999) := by omega
  simp [h1, h.2.1, h.2.2]

theorem writeHeaderKind_final (code : Int)
    (h : code = 101 ∨ (200 ≤ code ∧ code ≤ 999)) :
    writeHeaderKind code = WriteHeaderKind.final := by
  unfold writeHeaderKind
  have h1 : ¬ (code < 100 ∨ code > 999) := by omega
  have h2 : ¬ (code ≤ 199 ∧ code ≠ 101) := by omega
  simp [h1, h2]

theorem proxyHandler_invalid (cfg : Config) (env : Env) (r : Request) (resp : UpstreamResponse)
    (h : r.Query.Get (utf8 "url") ≠ [])
    (hn : env.newRequest r.Method (r.Query.Get (utf8 "url")) = none)
    (hd : env.clientDo (outboundRequest cfg r) = .ok resp)
    (hc : resp.StatusCode < 100 ∨ resp.StatusCode > 999) :
    proxyHandler cfg env r =
      { status := none, header := [], body := [], log := [],
        outbound := some (outboundRequest cfg r), interim := [],
        panic := some (utf8 "invalid WriteHeader code " ++ formatD resp.StatusCode) } := by
  rw [proxyHandler_ok cfg env r resp h hn hd, writeHeaderKind_invalid _ hc]

theorem proxyHandler_informational (cfg : Config) (env : Env) (r : Request)
    (resp : UpstreamResponse)
    (h : r.Query.Get (utf8 "url") ≠ [])
    (hn : env.newRequest r.Method (r.Query.Get (utf8 "url")) = none)
    (hd : env.clientDo (outboundRequest cfg r) = .ok resp)
    (hc : 100 ≤ resp.StatusCode ∧ resp.StatusCode ≤ 199 ∧ resp.StatusCode ≠ 101) :
    proxyHandler cfg env r = relayResponse cfg env r resp 200 [resp.StatusCode] := by
  rw [proxyHandler_ok cfg env r resp h hn hd, writeHeaderKind_informational _ hc]

theorem proxyHandler_final (cfg : Config) (env : Env) (r : Request) (resp : UpstreamResponse)
    (h : r.Query.Get (utf8 "url") ≠ [])
    (hn : env.newRequest r.Method (r.Query.Get (utf8 "url")) = none)
    (hd : env.clientDo (outboundRequest cfg r) = .ok resp)
    (hc : resp.StatusCode = 101 ∨ (200 ≤ resp.StatusCode ∧ resp.StatusCode ≤ 999)) :
    proxyHandler cfg env r = relayResponse cfg env r resp resp.StatusCode [] := by
  rw [proxyHandler_ok cfg env r resp h hn hd, writeHeaderKind_final _ hc]

theorem proxyHandler_valid (cfg : Config) (env : Env) (r : Request) (resp : UpstreamResponse)
    (h : r.Query.Get (utf8 "url") ≠ [])
    (hn : env.newRequest r.Method (r.Query.Get (utf8 "url")) = none)
    (hd : env.clientDo (outboundRequest cfg r) = .ok resp)
    (hc : 100 ≤ resp.StatusCode ∧ resp.StatusCode ≤ 999) :
    ∃ st interim, proxyHandler cfg env r = relayResponse cfg env r resp st interim := by
  by_cases hi : resp.StatusCode ≤ 199 ∧ resp.StatusCode ≠ 101
  · exact ⟨200, [resp.StatusCode],
      proxyHandler_informational cfg env r resp h hn hd ⟨hc.1, hi.1, hi.2⟩⟩
  · exact ⟨resp.StatusCode, [], proxyHandler_final cfg env r resp h hn hd (by omega)⟩

theorem proxyHandler_outbound (cfg : Config) (env : Env) (r : Request) :
    (proxyHandler cfg env r).outbound =
      if r.Query.Get (utf8 "url") ≠ [] ∧
          env.newRequest r.Method (r.Query.Get (utf8 "url")) = none then
        some (outboundRequest cfg r)
      else none := by
  by_cases h : r.Query.Get (utf8 "url") = []
  · rw [proxyHandler_missing cfg env r h]
    simp [h, httpError]
  · cases hn : env.newRequest r.Method (r.Query.Get (utf8 "url")) with
    | some e =>
      rw [proxyHandler_build_error cfg env r e h hn]
      simp [httpError]
    | none =>
      cases hd : env.clientDo (outboundRequest cfg r) with
      | error e =>
        rw [proxyHandler_upstream_error cfg env r e h hn hd]
        simp [h, httpError]
      | ok resp =>
        rw [proxyHandler_ok cfg env r resp h hn hd]
        cases writeHeaderKind resp.StatusCode <;> simp [h, relayResponse]

theorem outbound_eq {cfg : Config} {env : Env} {r : Request} {req : OutRequest}
    (h : (proxyHandler cfg env r).outbound = some req) : req = outboundRequest cfg r := by
  rw [proxyHandler_outbound] at h
  split at h
  · exact (Option.some.inj h).symm
  · exact absurd h (by simp)

theorem outboundHeader_eq (cfg : Config) (r : Request) :
    outboundHeader cfg r =
      setAll
        (if r.Header.Get (utf8 "Referer") ≠ [] then
          Header.Set (Header.Set [] (utf8 "User-Agent") cfg.userAgent) (utf8 "Referer")
            (r.Header.Get (utf8 "Referer"))
        else Header.Set [] (utf8 "User-Agent") cfg.userAgent)
        (validPairs (r.Query.Get (utf8 "headers"))) := by
  unfold outboundHeader
  simp only [customHeaders_eq]

theorem sameHeaderKey_iff (k k' : GoString) :
    sameHeaderKey k k' = true ↔ CanonicalMIMEHeaderKey k' = CanonicalMIMEHeaderKey k := by
  have h1 := canon_eq_iff k k'
  by_cases hv : k.all validHeaderFieldByte = true
  · simp only [hv, if_true] at h1
    simp only [sameHeaderKey, hv, if_true]
    exact ⟨fun h => (h1.2 h).symm, fun h => h1.1 h.symm⟩
  · simp only [hv] at h1
    simp only [sameHeaderKey, hv, decide_eq_true_eq]
    exact ⟨fun h => (h1.2 (by simpa using h)).symm, fun h => by simpa using h1.1 h.symm⟩

theorem filter_sameHeaderKey (ps : List (GoString × GoString)) (k : GoString) :
    ps.filter (fun p => sameHeaderKey k p.1) =
      ps.filter (fun p => CanonicalMIMEHeaderKey p.1 = CanonicalMIMEHeaderKey k) := by
  apply List.filter_congr
  intro p _
  by_cases h : sameHeaderKey k p.1 = true
  · simp [h, (sameHeaderKey_iff k p.1).1 h]
  · have : ¬ CanonicalMIMEHeaderKey p.1 = CanonicalMIMEHeaderKey k :=
      fun hc => h ((sameHeaderKey_iff k p.1).2 hc)
    simp [h, this]

theorem Header_Get_setAll (h : Header) (ps : List (GoString × GoString)) (k : GoString) :
    Header.Get (setAll h ps) k =
      match (ps.filter (fun p => sameHeaderKey k p.1)).getLast? with
      | some p => p.2
      | none => Header.Get h k := by
  unfold Header.Get mapGet
  rw [mapLookup_setAll, filter_sameHeaderKey]
  cases ((ps.filter (fun p => CanonicalMIMEHeaderKey p.1 = CanonicalMIMEHeaderKey k)).getLast?) with
  | none => rfl
  | some p => rfl

theorem isSpace2_ascii {a : Byte} (b : Byte) (h : a.val < 128) : isSpace2 a b = false := by
  cases hh : isSpace2 a b with
  | false => rfl
  | true =>
    simp only [isSpace2, Bool.and_eq_true, decide_eq_true_eq] at hh
    rw [hh.1] at h
    exact absurd h (by decide)

theorem isSpace3_ascii {a : Byte} (b c : Byte) (h : a.val < 128) : isSpace3 a b c = false := by
  cases hh : isSpace3 a b c with
  | false => rfl
  | true =>
    simp only [isSpace3, Bool.or_eq_true, Bool.and_eq_true, decide_eq_true_eq] at hh
    rcases hh with ((hh | hh) | hh) | hh
    · rw [hh.1.1] at h; exact absurd h (by decide)
    · rw [hh.1.1] at h; exact absurd h (by decide)
    · rw [hh.1.1] at h; exact absurd h (by decide)
    · rw [hh.1.1] at h; exact absurd h (by decide)

theorem trimLeftSpace_ascii : ∀ (s : GoString), (∀ c ∈ s, c.val < 128) →
    trimLeftSpace s = s.dropWhile asciiSpace
  | [], _ => rfl
  | [a], _ => by
    by_cases ha : asciiSpace a = true <;> simp [trimLeftSpace, List.dropWhile, ha]
  | [a, b], h => by
    have hb := trimLeftSpace_ascii [b] (fun c hc => h c (List.mem_cons_of_mem _ hc))
    have h2 := isSpace2_ascii b (h a (List.mem_cons_self _ _))
    by_cases ha : asciiSpace a = true
    · simp [trimLeftSpace, ha, List.dropWhile_cons]
    · simp [trimLeftSpace, ha, h2, List.dropWhile_cons]
  | a :: b :: c :: s, h => by
    have hb := trimLeftSpace_ascii (b :: c :: s) (fun x hx => h x (List.mem_cons_of_mem _ hx))
    have h2 := isSpace2_ascii b (h a (List.mem_cons_self _ _))
    have h3 := isSpace3_ascii b c (h a (List.mem_cons_self _ _))
    by_cases ha : asciiSpace a = true
    · simp only [trimLeftSpace, ha, if_true, hb, List.dropWhile_cons]
    · simp [trimLeftSpace, ha, h2, h3, List.dropWhile_cons]

theorem trimRightSpaceRev_ascii : ∀ (s : GoString), (∀ c ∈ s, c.val < 128) →
    trimRightSpaceRev s = s.dropWhile asciiSpace
  | [], _ => rfl
  | [a], _ => by
    by_cases ha : asciiSpace a = true <;> simp [trimRightSpaceRev, List.dropWhile, ha]
  | [a, b], h => by
    have hb := trimRightSpaceRev_ascii [b] (fun c hc => h c (List.mem_cons_of_mem _ hc))
    have h2 := isSpace2_ascii a (h b (List.mem_cons_of_mem _ (List.mem_cons_self _ _)))
    by_cases ha : asciiSpace a = true
    · simp [trimRightSpaceRev, ha, List.dropWhile_cons]
    · simp [trimRightSpaceRev, ha, h2, List.dropWhile_cons]
  | a :: b :: c :: s, h => by
    have hb := trimRightSpaceRev_ascii (b :: c :: s) (fun x hx => h x (List.mem_cons_of_mem _ hx))
    have h2 := isSpace2_ascii a (h b (List.mem_cons_of_mem _ (List.mem_cons_self _ _)))
    have h3 := isSpace3_ascii b a
      (h c (List.mem_cons_of_mem _ (List.mem_cons_of_mem _ (List.mem_cons_self _ _))))
    by_cases ha : asciiSpace a = true
    · simp only [trimRightSpaceRev, ha, if_true, hb, List.dropWhile_cons]
    · simp [trimRightSpaceRev, ha, h2, h3, List.dropWhile_cons]

/-- On a string of ASCII bytes `strings.TrimSpace` drops exactly the leading and
the trailing bytes that are tab, newline, vertical tab, form feed, carriage
return or space. -/
theorem TrimSpace_ascii (s : GoString) (h : ∀ c ∈ s, c.val < 128) :
    TrimSpace s = trimAsciiSpace s := by
  unfold TrimSpace trimAsciiSpace
  rw [trimLeftSpace_ascii s h, trimRightSpaceRev_ascii]
  intro c hc
  exact h c ((List.dropWhile_sublist _).subset (List.mem_reverse.1 hc))

theorem dropWhile_eq_nil_iff_all (f : Byte → Bool) (s : GoString) :
    s.dropWhile f = [] ↔ ∀ c ∈ s, f c = true := by
  induction s with
  | nil => simp
  | cons a s ih =>
    by_cases ha : f a = true
    · simp [List.dropWhile_cons, ha, ih]
    · simp [List.dropWhile_cons, ha]

/-- On a string of ASCII bytes nothing is left after trimming exactly when every
byte is white space. -/
theorem TrimSpace_ascii_eq_nil (s : GoString) (h : ∀ c ∈ s, c.val < 128) :
    TrimSpace s = [] ↔ ∀ c ∈ s, asciiSpace c = true := by
  rw [TrimSpace_ascii s h]
  unfold trimAsciiSpace
  rw [List.reverse_eq_nil_iff, dropWhile_eq_nil_iff_all]
  constructor
  · intro hh
    by_contra hne
    have hne' : s.dropWhile asciiSpace ≠ [] := by
      intro h0
      exact hne ((dropWhile_eq_nil_iff_all _ _).1 h0)
    have hhead := List.head_dropWhile_not asciiSpace s hne'
    have hmem : (s.dropWhile asciiSpace).head hne' ∈ (s.dropWhile asciiSpace).reverse :=
      List.mem_reverse.2 (List.head_mem hne')
    rw [hh _ hmem] at hhead
    exact absurd hhead (by simp)
  · intro hh c hc
    exact hh c ((List.dropWhile_sublist _).subset (List.mem_reverse.1 hc))

theorem mem_mapKeys_setAll (h : Header) (ps : List (GoString × GoString)) (k : GoString) :
    k ∈ mapKeys (setAll h ps) ↔
      k ∈ mapKeys h ∨ ∃ p ∈ ps, k = CanonicalMIMEHeaderKey p.1 := by
  induction ps using List.reverseRecOn with
  | nil => simp [setAll]
  | append_singleton ps p ih =>
    rw [setAll_append]
    have hs : setAll (setAll h ps) [p] = Header.Set (setAll h ps) p.1 p.2 := rfl
    rw [hs, Header.Set, mem_mapKeys_mapSet, ih]
    constructor
    · rintro (h1 | h1 | ⟨q, hq, h1⟩)
      · exact Or.inr ⟨p, by simp, h1⟩
      · exact Or.inl h1
      · exact Or.inr ⟨q, by simp [hq], h1⟩
    · rintro (h1 | ⟨q, hq, h1⟩)
      · exact Or.inr (Or.inl h1)
      · rcases List.mem_append.1 hq with h2 | h2
        · exact Or.inr (Or.inr ⟨q, h2, h1⟩)
        · have : q = p := by simpa using h2
          subst this
          exact Or.inl h1

/-- C1 (as stated) fails: a `headers` parameter naming `User-Agent` replaces
the configured default on the outbound request. -/
theorem C1_counterexample :
    ∃ req, (proxyHandler demoConfig demoEnv uaOverrideRequest).outbound = some req ∧
      req.Header.Get (utf8 "User-Agent") = utf8 "curl" ∧
      demoConfig.userAgent = utf8 "Mozilla/5.0" :=
  ⟨outboundRequest demoConfig uaOverrideRequest, by decide, by decide, by decide⟩

/-- C1 (amended): on every outbound request the User-Agent header is the
configured default, whatever headers the inbound request carries, unless the
`headers` parameter holds a valid pair whose key is `User-Agent` ignoring case;
it is then the value of the last such pair. -/
theorem C1_user_agent_default_or_custom (cfg : Config) (env : Env) (r : Request) (req : OutRequest)
    (h : (proxyHandler cfg env r).outbound = some req) :
    req.Header.Get (utf8 "User-Agent") =
      match ((validPairs (r.Query.Get (utf8 "headers"))).filter
          (fun p => equalFold (utf8 "User-Agent") p.1)).getLast? with
      | some p => p.2
      | none => cfg.userAgent := by
  rw [outbound_eq h]
  show Header.Get (outboundHeader cfg r) (utf8 "User-Agent") = _
  rw [outboundHeader_eq, Header_Get_setAll]
  have hv : (utf8 "User-Agent").all validHeaderFieldByte = true := by decide
  have hs : ∀ k', sameHeaderKey (utf8 "User-Agent") k' = equalFold (utf8 "User-Agent") k' := by
    intro k'; simp [sameHeaderKey, hv]
  simp only [hs]
  have hc : CanonicalMIMEHeaderKey (utf8 "User-Agent") = utf8 "User-Agent" := by decide
  have hr : CanonicalMIMEHeaderKey (utf8 "Referer") = utf8 "Referer" := by decide
  have hne : utf8 "User-Agent" ≠ utf8 "Referer" := by decide
  have hbase : Header.Get
      (if r.Header.Get (utf8 "Referer") ≠ [] then
        Header.Set (Header.Set [] (utf8 "User-Agent") cfg.userAgent) (utf8 "Referer")
          (r.Header.Get (utf8 "Referer"))
      else Header.Set [] (utf8 "User-Agent") cfg.userAgent) (utf8 "User-Agent") = cfg.userAgent := by
    split <;> simp [Header.Get, Header.Set, mapGet_mapSet, hc, hr, hne]
  rw [hbase]

/-- Witness of C1 (amended): a caller that sends its own User-Agent header and
no custom pair for it gets the default on the outbound request. -/
theorem C1_user_agent_witness :
    (proxyHandler demoConfig demoEnv refererRequestOther).outbound =
        some (outboundRequest demoConfig refererRequestOther) ∧
      (outboundRequest demoConfig refererRequestOther).Header.Get (utf8 "User-Agent") =
        utf8 "Mozilla/5.0" :=
  ⟨by decide,
    (C1_user_agent_default_or_custom demoConfig demoEnv refererRequestOther
      (outboundRequest demoConfig refererRequestOther) (by decide)).trans (by decide)⟩

theorem beforeColon_append_afterColon {p : GoString} (h : (58 : Byte) ∈ p) :
    p = beforeColon p ++ 58 :: afterColon p ∧ (58 : Byte) ∉ beforeColon p := by
  induction p with
  | nil => simp at h
  | cons c cs ih =>
    by_cases hc : c = 58
    · subst hc
      simp [beforeColon, afterColon]
    · have hmem : (58 : Byte) ∈ cs := by
        rcases List.mem_cons.1 h with h1 | h1
        · exact absurd h1.symm hc
        · exact h1
      have := ih hmem
      simp only [beforeColon, afterColon] at this ⊢
      simp only [List.takeWhile_cons, List.dropWhile_cons, bne_iff_ne, ne_eq, hc, not_false_eq_true,
        decide_True, ite_true, List.cons_append, List.mem_cons, not_or]
      exact ⟨by rw [← this.1], Ne.symm hc, this.2⟩

theorem mapLookup_foldl_customHeaderPair (l : List GoString) (h0 : Header) (ck : GoString)
    (hno : ∀ q ∈ l, validPiece q = true →
      CanonicalMIMEHeaderKey (TrimSpace (beforeColon q)) ≠ ck) :
    mapLookup (l.foldl customHeaderPair h0) ck = mapLookup h0 ck := by
  induction l generalizing h0 with
  | nil => rfl
  | cons q l ih =>
    rw [List.foldl_cons, ih _ (fun q' hq' => hno q' (List.mem_cons_of_mem _ hq')),
      customHeaderPair_eq]
    by_cases hv : validPiece q = true
    · rw [if_pos hv, Header.Set, mapLookup_mapSet,
        if_neg (Ne.symm (hno q (List.mem_cons_self _ _) hv))]
    · rw [if_neg hv]

theorem validPiece_ascii (p : GoString) (h : ∀ c ∈ p, c.val < 128) :
    validPiece p = true ↔
      (58 : Byte) ∈ p ∧ (∃ c ∈ beforeColon p, asciiSpace c = false) ∧
        (∃ c ∈ afterColon p, asciiSpace c = false) := by
  have hb : ∀ c ∈ beforeColon p, c.val < 128 := fun c hc =>
    h c ((List.takeWhile_sublist _).subset hc)
  have ha : ∀ c ∈ afterColon p, c.val < 128 := fun c hc =>
    h c ((List.dropWhile_sublist _).subset ((List.drop_sublist _ _).subset hc))
  have e1 := TrimSpace_ascii_eq_nil (beforeColon p) hb
  have e2 := TrimSpace_ascii_eq_nil (afterColon p) ha
  simp only [validPiece, Bool.and_eq_true, decide_eq_true_eq, ne_eq, e1, e2, not_forall,
    Bool.not_eq_true, exists_prop, and_assoc]

set_option maxRecDepth 100000 in
/-- C3: the header set of the outbound request is the default User-Agent, the
Referer of the caller if it sent one, and on top of these one `Header.Set` for
each valid comma-separated piece of the `headers` parameter, in order, and
nothing for the other pieces: the outbound request carries a header exactly when
it is one of the two preset ones or the key of a valid piece.  A piece is valid
when it contains a colon and the text before its first colon and the text after
it are both non-empty once trimmed; for a piece of ASCII bytes that is: each holds
a byte other than tab, newline, vertical tab, form feed, carriage return and
space.  The pieces hold no comma and, joined by commas, are the parameter.
Whatever the parameter holds, the request is handed to the client.
`Referer:abc,Bogus,Cache-Control:no-cache` applies exactly `Referer` and
`Cache-Control`; `:y` and `x:` apply nothing, nor do ` :y`, `x:` followed by a
tab and a space, and a no-break space followed by `:y`. -/
theorem C3_valid_pieces_are_applied (cfg : Config) (env : Env) (r : Request) (req : OutRequest)
    (hreq : (proxyHandler cfg env r).outbound = some req) :
    req.Header =
        ((Split (r.Query.Get (utf8 "headers")) 44).filter validPiece).foldl
          (fun h q => h.Set (TrimSpace (beforeColon q)) (TrimSpace (afterColon q)))
          (if r.Header.Get (utf8 "Referer") ≠ [] then
            Header.Set (Header.Set [] (utf8 "User-Agent") cfg.userAgent) (utf8 "Referer")
              (r.Header.Get (utf8 "Referer"))
          else Header.Set [] (utf8 "User-Agent") cfg.userAgent) ∧
      (∀ k : GoString, k ∈ mapKeys req.Header ↔
        (k = utf8 "User-Agent" ∨ (k = utf8 "Referer" ∧ r.Header.Get (utf8 "Referer") ≠ []) ∨
          ∃ q ∈ Split (r.Query.Get (utf8 "headers")) 44, validPiece q = true ∧
            k = CanonicalMIMEHeaderKey (TrimSpace (beforeColon q)))) ∧
      (∀ p : GoString, (∀ c ∈ p, c.val < 128) →
        (validPiece p = true ↔
          (58 : Byte) ∈ p ∧ (∃ c ∈ beforeColon p, asciiSpace c = false) ∧
            (∃ c ∈ afterColon p, asciiSpace c = false))) ∧
      (Join 44 (Split (r.Query.Get (utf8 "headers")) 44) = r.Query.Get (utf8 "headers") ∧
        ∀ q ∈ Split (r.Query.Get (utf8 "headers")) 44, (44 : Byte) ∉ q) ∧
      (∀ r' : Request, r'.Method = r.Method →
        r'.Query.Get (utf8 "url") = r.Query.Get (utf8 "url") →
        (proxyHandler cfg env r').outbound = some (outboundRequest cfg r')) ∧
      outboundHeaderOf
          (utf8 "url=http://example.com/a.jpg&headers=Referer:abc,Bogus,Cache-Control:no-cache") =
        some [(utf8 "User-Agent", [utf8 "Mozilla/5.0"]), (utf8 "Referer", [utf8 "abc"]),
          (utf8 "Cache-Control", [utf8 "no-cache"])] ∧
      outboundHeaderOf (utf8 "url=http://example.com/a.jpg&headers=:y") =
        some [(utf8 "User-Agent", [utf8 "Mozilla/5.0"])] ∧
      outboundHeaderOf (utf8 "url=http://example.com/a.jpg&headers=x:") =
        some [(utf8 "User-Agent", [utf8 "Mozilla/5.0"])] ∧
      outboundHeaderOf (utf8 "url=http://example.com/a.jpg&headers=+:y") =
        some [(utf8 "User-Agent", [utf8 "Mozilla/5.0"])] ∧
      outboundHeaderOf (utf8 "url=http://example.com/a.jpg&headers=x:%09+") =
        some [(utf8 "User-Agent", [utf8 "Mozilla/5.0"])] ∧
      outboundHeaderOf (utf8 "url=http://example.com/a.jpg&headers=%C2%A0:y") =
        some [(utf8 "User-Agent", [utf8 "Mozilla/5.0"])] := by
  have hout := proxyHandler_outbound cfg env r
  have hcond : r.Query.Get (utf8 "url") ≠ [] ∧
      env.newRequest r.Method (r.Query.Get (utf8 "url")) = none := by
    by_contra hc
    rw [if_neg hc, hreq] at hout
    exact absurd hout (by simp)
  have hhead : req.Header =
      setAll
        (if r.Header.Get (utf8 "Referer") ≠ [] then
          Header.Set (Header.Set [] (utf8 "User-Agent") cfg.userAgent) (utf8 "Referer")
            (r.Header.Get (utf8 "Referer"))
        else Header.Set [] (utf8 "User-Agent") cfg.userAgent)
        (validPairs (r.Query.Get (utf8 "headers"))) := by
    rw [outbound_eq hreq]
    exact outboundHeader_eq cfg r
  refine ⟨?_, ?_, validPiece_ascii, Split_spec _ 44, ?_, by decide, by decide, by decide,
    by decide, by decide, by decide⟩
  · rw [hhead]
    simp only [setAll, validPairs, List.foldl_map]
  · intro k
    rw [hhead, mem_mapKeys_setAll]
    have hua : CanonicalMIMEHeaderKey (utf8 "User-Agent") = utf8 "User-Agent" := by decide
    have hrf : CanonicalMIMEHeaderKey (utf8 "Referer") = utf8 "Referer" := by decide
    have hbase : k ∈ mapKeys
        (if r.Header.Get (utf8 "Referer") ≠ [] then
          Header.Set (Header.Set [] (utf8 "User-Agent") cfg.userAgent) (utf8 "Referer")
            (r.Header.Get (utf8 "Referer"))
        else Header.Set [] (utf8 "User-Agent") cfg.userAgent) ↔
        (k = utf8 "User-Agent" ∨ (k = utf8 "Referer" ∧ r.Header.Get (utf8 "Referer") ≠ [])) := by
      by_cases hr : r.Header.Get (utf8 "Referer") = []
      · rw [if_neg (not_not.2 hr), Header.Set, mem_mapKeys_mapSet, hua]
        simp [mapKeys, hr]
      · rw [if_pos hr, Header.Set, Header.Set, mem_mapKeys_mapSet, mem_mapKeys_mapSet, hua, hrf]
        simp [mapKeys, hr, or_comm]
    rw [hbase, or_assoc]
    apply or_congr Iff.rfl
    apply or_congr Iff.rfl
    simp only [validPairs, List.mem_map, List.mem_filter]
    constructor
    · rintro ⟨p, ⟨q, ⟨hq, hv⟩, rfl⟩, hk⟩
      exact ⟨q, hq, hv, hk⟩
    · rintro ⟨q, hq, hv, hk⟩
      exact ⟨_, ⟨q, ⟨hq, hv⟩, rfl⟩, hk⟩
  · intro r' hm hu
    rw [proxyHandler_outbound, if_pos]
    rw [hm, hu]
    exact hcond

/-- Witness of C3: the pieces `referer:one` and `REFERER:two` on a request that
carries a Referer of its own. -/
theorem C3_valid_pieces_witness :
    (proxyHandler demoConfig demoEnv refererRequest).outbound =
        some (outboundRequest demoConfig refererRequest) ∧
      (outboundRequest demoConfig refererRequest).Header =
        [(utf8 "User-Agent", [utf8 "Mozilla/5.0"]), (utf8 "Referer", [utf8 "two"])] :=
  ⟨by decide,
    (C3_valid_pieces_are_applied demoConfig demoEnv refererRequest
      (outboundRequest demoConfig refererRequest) (by decide)).1.trans (by decide)⟩

set_option maxRecDepth 100000 in
/-- C4: a valid piece of the `headers` parameter does `Header.Set` on the
outbound request with the trimmed text before the first colon of the piece as
key and the trimmed text after that first colon, later colons included, as
value: the piece is the text before, one colon, and the text after, and the text
before holds no colon.  The header set of the outbound request is what the later
pieces make of the set so obtained from the earlier ones; when no later valid
piece names the same header, the outbound request carries that value, and only
it, for the key.  Trimming a string of ASCII bytes drops its leading and trailing
tabs, newlines, vertical tabs, form feeds, carriage returns and spaces.
`Referer:https://example.com` gives the value `https://example.com`, and
`" x : y "` applies header `x` with value `y`. -/
theorem C4_key_and_value_of_a_piece (cfg : Config) (env : Env) (r : Request) (req : OutRequest)
    (l1 l2 : List GoString) (p : GoString)
    (hreq : (proxyHandler cfg env r).outbound = some req)
    (hsplit : Split (r.Query.Get (utf8 "headers")) 44 = l1 ++ p :: l2)
    (hv : validPiece p = true) :
    req.Header =
        l2.foldl customHeaderPair
          (Header.Set
            (l1.foldl customHeaderPair
              (if r.Header.Get (utf8 "Referer") ≠ [] then
                Header.Set (Header.Set [] (utf8 "User-Agent") cfg.userAgent) (utf8 "Referer")
                  (r.Header.Get (utf8 "Referer"))
              else Header.Set [] (utf8 "User-Agent") cfg.userAgent))
            (TrimSpace (beforeColon p)) (TrimSpace (afterColon p))) ∧
      ((∀ q ∈ l2, validPiece q = true →
          sameHeaderKey (TrimSpace (beforeColon p)) (TrimSpace (beforeColon q)) = false) →
        req.Header.Get (TrimSpace (beforeColon p)) = TrimSpace (afterColon p) ∧
          mapGet req.Header (CanonicalMIMEHeaderKey (TrimSpace (beforeColon p))) =
            [TrimSpace (afterColon p)]) ∧
      (p = beforeColon p ++ 58 :: afterColon p ∧ (58 : Byte) ∉ beforeColon p) ∧
      (∀ s : GoString, (∀ c ∈ s, c.val < 128) → TrimSpace s = trimAsciiSpace s) ∧
      outboundHeaderOf (utf8 "url=http://example.com/a.jpg&headers=Referer:https://example.com") =
        some [(utf8 "User-Agent", [utf8 "Mozilla/5.0"]),
          (utf8 "Referer", [utf8 "https://example.com"])] ∧
      outboundHeaderOf (utf8 "url=http://example.com/a.jpg&headers=+x+:+y+") =
        some [(utf8 "User-Agent", [utf8 "Mozilla/5.0"]), (utf8 "X", [utf8 "y"])] ∧
      (outboundHeaderOf (utf8 "url=http://example.com/a.jpg&headers=+x+:+y+")).map
          (fun h => h.Get (utf8 "x")) = some (utf8 "y") := by
  have hmem : (58 : Byte) ∈ p := by
    simp only [validPiece, Bool.and_eq_true, decide_eq_true_eq] at hv
    exact hv.1.1
  have hne : r.Query.Get (utf8 "headers") ≠ [] := by
    intro h0
    rw [h0] at hsplit
    have h1 : Split [] 44 = [[]] := by decide
    rw [h1] at hsplit
    have hp : p ∈ [([] : GoString)] := by rw [hsplit]; simp
    have hp' : p = [] := by simpa using hp
    rw [hp'] at hmem
    simp at hmem
  have hhead : req.Header =
      l2.foldl customHeaderPair
        (Header.Set
          (l1.foldl customHeaderPair
            (if r.Header.Get (utf8 "Referer") ≠ [] then
              Header.Set (Header.Set [] (utf8 "User-Agent") cfg.userAgent) (utf8 "Referer")
                (r.Header.Get (utf8 "Referer"))
            else Header.Set [] (utf8 "User-Agent") cfg.userAgent))
          (TrimSpace (beforeColon p)) (TrimSpace (afterColon p))) := by
    rw [outbound_eq hreq]
    show outboundHeader cfg r = _
    unfold outboundHeader
    simp only [customHeaders, if_pos hne, hsplit, List.foldl_append, List.foldl_cons]
    rw [customHeaderPair_eq, if_pos hv]
  have hlook : (∀ q ∈ l2, validPiece q = true →
        sameHeaderKey (TrimSpace (beforeColon p)) (TrimSpace (beforeColon q)) = false) →
      mapLookup req.Header (CanonicalMIMEHeaderKey (TrimSpace (beforeColon p))) =
        some [TrimSpace (afterColon p)] := by
    intro hlast
    rw [hhead, mapLookup_foldl_customHeaderPair, Header.Set, mapLookup_mapSet, if_pos rfl]
    intro q hq hvq hc
    have := (sameHeaderKey_iff (TrimSpace (beforeColon p)) (TrimSpace (beforeColon q))).2 hc
    rw [hlast q hq hvq] at this
    exact absurd this (by simp)
  refine ⟨hhead, ?_, beforeColon_append_afterColon hmem, TrimSpace_ascii, by decide, by decide,
    by decide⟩
  intro hlast
  have h1 := hlook hlast
  have hnn : TrimSpace (afterColon p) ≠ [] := by
    simp only [validPiece, Bool.and_eq_true, decide_eq_true_eq] at hv
    exact hv.2
  refine ⟨?_, ?_⟩
  · unfold Header.Get mapGet
    rw [h1]
  · unfold mapGet
    rw [h1]

/-- Witness of C4: the piece `" x : y "` between an invalid piece and a piece
for another header. -/
theorem C4_key_and_value_witness :
    (proxyHandler demoConfig demoEnv spacedPieceRequest).outbound =
        some (outboundRequest demoConfig spacedPieceRequest) ∧
      Split (spacedPieceRequest.Query.Get (utf8 "headers")) 44 =
        [utf8 "Bogus"] ++ utf8 " x : y " :: [utf8 "Accept:a:b"] ∧
      (outboundRequest demoConfig spacedPieceRequest).Header =
        [(utf8 "User-Agent", [utf8 "Mozilla/5.0"]), (utf8 "X", [utf8 "y"]),
          (utf8 "Accept", [utf8 "a:b"])] :=
  ⟨by decide, by decide,
    (C4_key_and_value_of_a_piece demoConfig demoEnv spacedPieceRequest
      (outboundRequest demoConfig spacedPieceRequest) [utf8 "Bogus"] [utf8 "Accept:a:b"]
      (utf8 " x : y ") (by decide) (by decide) (by decide)).1.trans (by decide)⟩

/-- C5 (as stated) fails: of two valid pairs whose keys hold a space and differ
in case only, the later one does not replace the earlier one; each keeps its own
entry on the outbound request `proxyHandler` hands to the client. -/
theorem C5_counterexample :
    ((validPairs (mixedCaseRequest.Query.Get (utf8 "headers"))).filter
        (fun q => equalFold (utf8 "a b") q.1)).getLast? = some (utf8 "A b", utf8 "2") ∧
      ∃ req, (proxyHandler demoConfig refusingEnv mixedCaseRequest).outbound = some req ∧
        req.Header.Get (utf8 "a b") = utf8 "1" ∧
        req.Header =
          [(utf8 "User-Agent", [utf8 "Mozilla/5.0"]), (utf8 "a b", [utf8 "1"]),
            (utf8 "A b", [utf8 "2"])] :=
  ⟨by decide, outboundRequest demoConfig mixedCaseRequest, by decide, by decide, by decide⟩

/-- C5 (amended): last writer wins.  On every outbound request the value of a
header key `k` is the value of the last valid pair of the `headers` parameter
whose key names the same header as `k`, if there is one, and it is the only
value of that header.  Two keys name the same header when they are equal
ignoring ASCII case and consist of token characters only; a key with any other
byte (a space, a non-ASCII byte) matches only itself, byte for byte.  So a custom
pair with key `referer`, in any case, replaces the Referer copied from the
inbound request. -/
theorem C5_last_valid_pair_wins (cfg : Config) (env : Env) (r : Request) (req : OutRequest)
    (k : GoString) (p : GoString × GoString)
    (hreq : (proxyHandler cfg env r).outbound = some req)
    (hlast : ((validPairs (r.Query.Get (utf8 "headers"))).filter
        (fun q => sameHeaderKey k q.1)).getLast? = some p) :
    req.Header.Get k = p.2 ∧ mapGet req.Header (CanonicalMIMEHeaderKey k) = [p.2] ∧
      (∀ k' : GoString, sameHeaderKey k k' = true ↔
        if k.all validHeaderFieldByte then
          k'.all validHeaderFieldByte = true ∧ k.map toLowerByte = k'.map toLowerByte
        else k = k') := by
  rw [outbound_eq hreq]
  show Header.Get (outboundHeader cfg r) k = p.2 ∧
    mapGet (outboundHeader cfg r) (CanonicalMIMEHeaderKey k) = [p.2] ∧ _
  have hget : Header.Get (outboundHeader cfg r) k = p.2 := by
    rw [outboundHeader_eq, Header_Get_setAll, hlast]
  refine ⟨hget, ?_, ?_⟩
  · rw [outboundHeader_eq]
    unfold mapGet
    rw [mapLookup_setAll]
    rw [← filter_sameHeaderKey, hlast]
  · intro k'
    by_cases hv : k.all validHeaderFieldByte = true
    · simp only [sameHeaderKey, hv, if_true, equalFold, decide_eq_true_eq]
      constructor
      · intro he
        refine ⟨?_, he⟩
        rw [← map_toLower_all_valid, ← he, map_toLower_all_valid]
        exact hv
      · intro he
        exact he.2
    · simp [sameHeaderKey, hv]

/-- Witness of C5 (amended): the pairs `referer:one,REFERER:two` on a request that
carries a Referer of its own leave the single value `two`. -/
theorem C5_last_valid_pair_witness :
    (proxyHandler demoConfig demoEnv refererRequest).outbound =
        some (outboundRequest demoConfig refererRequest) ∧
      ((validPairs (refererRequest.Query.Get (utf8 "headers"))).filter
        (fun q => sameHeaderKey (utf8 "Referer") q.1)).getLast? = some (utf8 "REFERER", utf8 "two") ∧
      mapGet (outboundRequest demoConfig refererRequest).Header (utf8 "Referer") = [utf8 "two"] :=
  ⟨by decide, by decide,
    (C5_last_valid_pair_wins demoConfig demoEnv refererRequest
      (outboundRequest demoConfig refererRequest) (utf8 "Referer") (utf8 "REFERER", utf8 "two")
      (by decide) (by decide)).2.1⟩

/-- C10: the header set of the outbound request depends only on the configured
default User-Agent, the inbound Referer header and the `headers` parameter.
Two inbound requests that agree on these get equal outbound header sets,
however their other headers, methods, bodies and targets differ: no inbound
header other than Referer reaches the upstream. -/
theorem C10_outbound_headers_noninterference (cfg : Config) (env1 env2 : Env) (r1 r2 : Request)
    (req1 req2 : OutRequest)
    (hReferer : r1.Header.Get (utf8 "Referer") = r2.Header.Get (utf8 "Referer"))
    (hHeaders : r1.Query.Get (utf8 "headers") = r2.Query.Get (utf8 "headers"))
    (h1 : (proxyHandler cfg env1 r1).outbound = some req1)
    (h2 : (proxyHandler cfg env2 r2).outbound = some req2) :
    req1.Header = req2.Header := by
  rw [outbound_eq h1, outbound_eq h2]
  show outboundHeader cfg r1 = outboundHeader cfg r2
  unfold outboundHeader
  rw [hReferer, hHeaders]

/-- Witness of C10: two callers with different cookies, credentials,
User-Agent, method, body and target, the same Referer and `headers`. -/
theorem C10_noninterference_witness :
    refererRequest.Header.Get (utf8 "Referer") = refererRequestOther.Header.Get (utf8 "Referer") ∧
      refererRequest.Header ≠ refererRequestOther.Header ∧
      (outboundRequest demoConfig refererRequest).Header =
        (outboundRequest demoConfig refererRequestOther).Header :=
  ⟨by decide, by decide,
    C10_outbound_headers_noninterference demoConfig demoEnv badRequestEnv refererRequest
      refererRequestOther _ _ (by decide) (by decide) (by decide) (by decide)⟩

/-- C6 (as stated) fails: a request that names its target gets the status 400
when the upstream answers 400. -/
theorem C6_counterexample :
    (proxyHandler demoConfig badRequestEnv uaOverrideRequest).status = some 400 ∧
      uaOverrideRequest.Query.Get (utf8 "url") = utf8 "http://example.com/a.jpg" ∧
      (proxyHandler demoConfig badRequestEnv uaOverrideRequest).outbound =
        some (outboundRequest demoConfig uaOverrideRequest) := by
  decide

/-- C6 (amended): the status code of the response.  It is 400 when the `url`
parameter is missing or empty, and then no outbound request is built or sent and
the network is not consulted; 500 when building the outbound request fails or
executing it fails; otherwise, for an upstream status code that is 101 or from
200 to 999, exactly that code, which may itself be 400 or 500; for an upstream
code from 100 to 199 other than 101, which `WriteHeader` sends as an
informational response, 200; and for an upstream code below 100 or above 999
there is no status at all: `WriteHeader` panics, nothing is written and nothing
is logged.  The status is 400 exactly when the `url` parameter is missing or
empty or the upstream answered 400. -/
theorem C6_status_code (cfg : Config) (env : Env) (r : Request) :
    (r.Query.Get (utf8 "url") = [] →
        (proxyHandler cfg env r).status = some 400 ∧ (proxyHandler cfg env r).outbound = none ∧
          ∀ env' : Env, proxyHandler cfg env' r = proxyHandler cfg env r) ∧
      (r.Query.Get (utf8 "url") ≠ [] →
        ∀ e, env.newRequest r.Method (r.Query.Get (utf8 "url")) = some e →
          (proxyHandler cfg env r).status = some 500 ∧ (proxyHandler cfg env r).outbound = none) ∧
      (r.Query.Get (utf8 "url") ≠ [] →
        env.newRequest r.Method (r.Query.Get (utf8 "url")) = none →
        ∀ e, env.clientDo (outboundRequest cfg r) = .error e →
          (proxyHandler cfg env r).status = some 500) ∧
      (r.Query.Get (utf8 "url") ≠ [] →
        env.newRequest r.Method (r.Query.Get (utf8 "url")) = none →
        ∀ resp, env.clientDo (outboundRequest cfg r) = .ok resp →
          ((resp.StatusCode = 101 ∨ (200 ≤ resp.StatusCode ∧ resp.StatusCode ≤ 999) →
              (proxyHandler cfg env r).status = some resp.StatusCode ∧
                (proxyHandler cfg env r).interim = [] ∧ (proxyHandler cfg env r).panic = none) ∧
            (100 ≤ resp.StatusCode ∧ resp.StatusCode ≤ 199 ∧ resp.StatusCode ≠ 101 →
              (proxyHandler cfg env r).status = some 200 ∧
                (proxyHandler cfg env r).interim = [resp.StatusCode] ∧
                (proxyHandler cfg env r).panic = none) ∧
            (resp.StatusCode < 100 ∨ resp.StatusCode > 999 →
              (proxyHandler cfg env r).status = none ∧
                (proxyHandler cfg env r).panic =
                  some (utf8 "invalid WriteHeader code " ++ formatD resp.StatusCode) ∧
                (proxyHandler cfg env r).header = [] ∧ (proxyHandler cfg env r).body = [] ∧
                (proxyHandler cfg env r).log = []))) ∧
      ((proxyHandler cfg env r).status = some 400 ↔
        (r.Query.Get (utf8 "url") = [] ∨
          (env.newRequest r.Method (r.Query.Get (utf8 "url")) = none ∧
            ∃ resp, env.clientDo (outboundRequest cfg r) = .ok resp ∧ resp.StatusCode = 400))) := by
  refine ⟨?_, ?_, ?_, ?_, ?_⟩
  · intro h
    refine ⟨?_, ?_, ?_⟩
    · rw [proxyHandler_missing cfg env r h]; rfl
    · rw [proxyHandler_missing cfg env r h]; rfl
    · intro env'
      rw [proxyHandler_missing cfg env r h, proxyHandler_missing cfg env' r h]
  · intro h e hn
    rw [proxyHandler_build_error cfg env r e h hn]
    exact ⟨rfl, rfl⟩
  · intro h hn e hd
    rw [proxyHandler_upstream_error cfg env r e h hn hd]
    rfl
  · intro h hn resp hd
    refine ⟨?_, ?_, ?_⟩
    · intro hc
      rw [proxyHandler_final cfg env r resp h hn hd hc]
      exact ⟨rfl, rfl, rfl⟩
    · intro hc
      rw [proxyHandler_informational cfg env r resp h hn hd hc]
      exact ⟨rfl, rfl, rfl⟩
    · intro hc
      rw [proxyHandler_invalid cfg env r resp h hn hd hc]
      exact ⟨rfl, rfl, rfl, rfl, rfl⟩
  · by_cases h : r.Query.Get (utf8 "url") = []
    · rw [proxyHandler_missing cfg env r h]
      simp [h, httpError]
    · cases hn : env.newRequest r.Method (r.Query.Get (utf8 "url")) with
      | some e =>
        rw [proxyHandler_build_error cfg env r e h hn]
        simp [h, httpError]
      | none =>
        cases hd : env.clientDo (outboundRequest cfg r) with
        | error e =>
          rw [proxyHandler_upstream_error cfg env r e h hn hd]
          simp [h, httpError]
        | ok resp =>
          simp only [h, false_or, true_and, Except.ok.injEq, exists_eq_left']
          by_cases hinv : resp.StatusCode < 100 ∨ resp.StatusCode > 999
          · rw [proxyHandler_invalid cfg env r resp h hn hd hinv]
            constructor
            · intro hx; exact absurd hx (by simp)
            · intro hx; omega
          · by_cases hi : resp.StatusCode ≤ 199 ∧ resp.StatusCode ≠ 101
            · rw [proxyHandler_informational cfg env r resp h hn hd (by omega)]
              simp only [relayResponse, Option.some.injEq]
              constructor
              · intro hx; exact absurd hx (by decide)
              · intro hx; omega
            · rw [proxyHandler_final cfg env r resp h hn hd (by omega)]
              simp only [relayResponse, Option.some.injEq]

theorem mapGet_of_not_mem {m : StringMap} {k : GoString} (h : k ∉ mapKeys m) : mapGet m k = [] := by
  unfold mapGet
  rw [mapLookup_eq_none.2 h]

theorem mapGet_addValues (w : Header) (k : GoString) (vs : List GoString)
    (hk : CanonicalMIMEHeaderKey k = k) (k' : GoString) :
    mapGet (vs.foldl (fun w value => Header.Add w k value) w) k' =
      if k' = k then mapGet w k ++ vs else mapGet w k' := by
  induction vs generalizing w with
  | nil => by_cases h : k' = k <;> simp [h]
  | cons v vs ih =>
    rw [List.foldl_cons, ih]
    unfold Header.Add
    rw [hk]
    by_cases h : k' = k
    · simp [h, mapGet_mapSet]
    · simp [h, mapGet_mapSet]

theorem mem_mapKeys_addValues (w : Header) (k : GoString) (vs : List GoString)
    (hk : CanonicalMIMEHeaderKey k = k) (k' : GoString)
    (h : k' ∈ mapKeys (vs.foldl (fun w value => Header.Add w k value) w)) :
    k' ∈ mapKeys w ∨ k' = k := by
  induction vs generalizing w with
  | nil => left; exact h
  | cons v vs ih =>
    rw [List.foldl_cons] at h
    rcases ih _ h with h1 | h1
    · unfold Header.Add at h1
      rw [hk] at h1
      rcases (mem_mapKeys_mapSet _ _ _ _).1 h1 with h2 | h2
      · right; exact h2
      · left; exact h2
    · right; exact h1

theorem copyHeaders_cons (w : Header) (k : GoString) (vs : List GoString) (m : Header) :
    copyHeaders w ((k, vs) :: m) =
      copyHeaders (vs.foldl (fun w value => Header.Add w k value) w) m := rfl

theorem mapGet_cons (k : GoString) (vs : List GoString) (m : StringMap) (k' : GoString) :
    mapGet ((k, vs) :: m) k' = if k = k' then vs else mapGet m k' := by
  unfold mapGet
  by_cases h : k = k' <;> simp [mapLookup, h]

theorem mapGet_copyHeaders (w m : Header) (hn : (mapKeys m).Nodup)
    (hc : ∀ k ∈ mapKeys m, CanonicalMIMEHeaderKey k = k) (k' : GoString) :
    mapGet (copyHeaders w m) k' = mapGet w k' ++ mapGet m k' := by
  induction m generalizing w with
  | nil => simp [copyHeaders, mapGet, mapLookup]
  | cons e m ih =>
    obtain ⟨k, vs⟩ := e
    simp only [mapKeys, List.map_cons, List.nodup_cons, List.mem_cons, forall_eq_or_imp] at hn hc
    rw [copyHeaders_cons, ih _ hn.2 hc.2, mapGet_addValues _ _ _ hc.1, mapGet_cons]
    by_cases h : k' = k
    · subst h
      simp [mapGet_of_not_mem hn.1]
    · simp [h, Ne.symm h]

theorem mem_mapKeys_copyHeaders (w m : Header)
    (hc : ∀ k ∈ mapKeys m, CanonicalMIMEHeaderKey k = k) (k' : GoString)
    (h : k' ∈ mapKeys (copyHeaders w m)) : k' ∈ mapKeys w ∨ k' ∈ mapKeys m := by
  induction m generalizing w with
  | nil => left; exact h
  | cons e m ih =>
    obtain ⟨k, vs⟩ := e
    simp only [mapKeys, List.map_cons, List.mem_cons, forall_eq_or_imp] at hc
    rw [copyHeaders_cons] at h
    rcases ih _ hc.2 h with h1 | h1
    · rcases mem_mapKeys_addValues _ _ _ hc.1 _ h1 with h2 | h2
      · left; exact h2
      · right; simp [mapKeys, h2]
    · right
      simp only [mapKeys, List.map_cons, List.mem_cons]
      right; exact h1

/-- C7: on a successful relay (the upstream answered with a status code from
100 to 999, which `WriteHeader` accepts) the caller-facing header set, empty at
the start, carries for every header key exactly the values of the upstream
response for that key, as many and in the same order, and no key the upstream
did not send.  The upstream header set is a Go map as the HTTP client fills it:
a key occurs once and is in canonical form. -/
theorem C7_response_headers_copied (cfg : Config) (env : Env) (r : Request)
    (resp : UpstreamResponse) (k : GoString)
    (hurl : r.Query.Get (utf8 "url") ≠ [])
    (hnew : env.newRequest r.Method (r.Query.Get (utf8 "url")) = none)
    (hdo : env.clientDo (outboundRequest cfg r) = .ok resp)
    (hcode : 100 ≤ resp.StatusCode ∧ resp.StatusCode ≤ 999)
    (hkeys : (mapKeys resp.Header).Nodup)
    (hcanon : ∀ key ∈ mapKeys resp.Header, CanonicalMIMEHeaderKey key = key) :
    mapGet (proxyHandler cfg env r).header k = mapGet resp.Header k ∧
      (k ∈ mapKeys (proxyHandler cfg env r).header → k ∈ mapKeys resp.Header) ∧
      (proxyHandler cfg env r).panic = none := by
  obtain ⟨st, interim, hrel⟩ := proxyHandler_valid cfg env r resp hurl hnew hdo hcode
  rw [hrel]
  refine ⟨?_, ?_, rfl⟩
  · show mapGet (copyHeaders [] resp.Header) k = _
    rw [mapGet_copyHeaders [] resp.Header hkeys hcanon]
    rfl
  · intro h
    rcases mem_mapKeys_copyHeaders [] resp.Header hcanon k h with h1 | h1
    · simp [mapKeys] at h1
    · exact h1

/-- Witness of C7: an upstream `Set-Cookie` with two values reaches the caller
as two `Set-Cookie` values, in the same order. -/
theorem C7_response_headers_witness :
    demoEnv.clientDo (outboundRequest demoConfig uaOverrideRequest) =
        .ok { StatusCode := 200, Header := [(utf8 "Set-Cookie", [utf8 "a=1", utf8 "b=2"])],
              Body := utf8 "hello", copyErr := none } ∧
      mapGet (proxyHandler demoConfig demoEnv uaOverrideRequest).header (utf8 "Set-Cookie") =
        [utf8 "a=1", utf8 "b=2"] :=
  ⟨rfl,
    (C7_response_headers_copied demoConfig demoEnv uaOverrideRequest
      { StatusCode := 200, Header := [(utf8 "Set-Cookie", [utf8 "a=1", utf8 "b=2"])],
        Body := utf8 "hello", copyErr := none }
      (utf8 "Set-Cookie") (by decide) (by decide) rfl (by decide) (by decide)
      (by decide)).1.trans (by decide)⟩

theorem log2Loop_spec (fuel n : Nat) (hn : 0 < n) (hf : n ≤ fuel) :
    2 ^ log2Loop fuel n ≤ n ∧ n < 2 ^ (log2Loop fuel n + 1) := by
  induction fuel generalizing n with
  | zero => omega
  | succ fuel ih =>
    unfold log2Loop
    by_cases h : n < 2
    · have h1 : n = 1 := by omega
      subst h1
      simp
    · rw [if_neg h]
      have := ih (n / 2) (by omega) (by omega)
      obtain ⟨h1, h2⟩ := this
      rw [pow_succ] at h2 ⊢
      rw [pow_succ]
      constructor <;> omega

theorem log2_spec (n : Nat) (hn : 0 < n) : 2 ^ log2 n ≤ n ∧ n < 2 ^ (log2 n + 1) :=
  log2Loop_spec n n hn (le_refl n)

theorem log2_unique {n a : Nat} (h1 : 2 ^ a ≤ n) (h2 : n < 2 ^ (a + 1)) : log2 n = a := by
  have hn : 0 < n := lt_of_lt_of_le (Nat.pow_pos (by decide)) h1
  obtain ⟨h3, h4⟩ := log2_spec n hn
  have h5 : log2 n < a + 1 := (Nat.pow_lt_pow_iff_right (by decide : 1 < 2)).1 (lt_of_le_of_lt h3 h2)
  have h6 : a < log2 n + 1 := (Nat.pow_lt_pow_iff_right (by decide : 1 < 2)).1 (lt_of_le_of_lt h1 h4)
  omega

theorem roundHalfEven_exact (q b : Nat) (hb : 0 < b) : roundHalfEven (q * b) b = q := by
  unfold roundHalfEven
  simp [Nat.mul_div_cancel _ hb, hb]

theorem roundHalfEven_scale (a b d : Nat) (hd : 0 < d) :
    roundHalfEven (a * d) (b * d) = roundHalfEven a b := by
  unfold roundHalfEven
  have h1 : a * d / (b * d) = a / b := Nat.mul_div_mul_right a b hd
  have h2 : a * d % (b * d) = a % b * d := Nat.mul_mod_mul_right d a b
  simp only [h1, h2]
  have e1 : 2 * (a % b * d) < b * d ↔ 2 * (a % b) < b := by
    rw [← Nat.mul_assoc]
    exact Nat.mul_lt_mul_right hd
  have e2 : 2 * (a % b * d) > b * d ↔ 2 * (a % b) > b := by
    rw [← Nat.mul_assoc]
    exact Nat.mul_lt_mul_right hd
  simp only [e1, e2]

theorem nearestFloat64_eq (a b la lb : Nat) (ha : 0 < a) (hb : 0 < b) (hla : log2 a = la)
    (hlb : log2 b = lb) (hcond : b * 2 ^ la ≤ a * 2 ^ lb) (hle : la ≤ lb + 52) :
    nearestFloat64 a b = ⟨roundHalfEven (a * 2 ^ (lb + 52 - la)) b, 2 ^ (lb + 52 - la)⟩ := by
  unfold nearestFloat64
  have h1 : ¬ (a = 0 ∨ b = 0) := by omega
  have h2 : (la : Int) - lb ≤ 52 := by omega
  have h3 : (52 - ((la : Int) - lb)).toNat = lb + 52 - la := by omega
  simp only [h1, if_false, hla, hlb, hcond, if_true, h2, h3]

/-- For a byte count below `2 ^ 53` the division `float64(n)/1024` is exact: the
hundredths `%.2f` prints are the hundredths of `n / 1024`, rounded to the
nearest, ties to even. -/
theorem hundredths_kib (n : Nat) (hn : n < 2 ^ 53) :
    hundredths ((float64 n).div 1024) = roundHalfEven (n * 100) 1024 := by
  by_cases h0 : n = 0
  · subst h0
    decide
  · have hpos : 0 < n := Nat.pos_of_ne_zero h0
    obtain ⟨hl1, hl2⟩ := log2_spec n hpos
    have hl : log2 n ≤ 52 := by
      have : log2 n < 53 :=
        (Nat.pow_lt_pow_iff_right (by decide : 1 < 2)).1 (lt_of_le_of_lt hl1 hn)
      omega
    obtain ⟨s, hs⟩ : ∃ s, s = 52 - log2 n := ⟨_, rfl⟩
    have hsl : log2 n + s = 52 := by omega
    have hpow : 2 ^ log2 n * 2 ^ s = 2 ^ 52 := by rw [← pow_add, hsl]
    have hps : 0 < 2 ^ s := Nat.pow_pos (by decide)
    have hlog1 : log2 1 = 0 := by decide
    have hf : float64 n = ⟨n * 2 ^ s, 2 ^ s⟩ := by
      unfold float64
      rw [nearestFloat64_eq n 1 (log2 n) 0 hpos (by decide) rfl hlog1 (by simpa using hl1)
        (by omega)]
      have : 0 + 52 - log2 n = s := by omega
      rw [this]
      have := roundHalfEven_exact (n * 2 ^ s) 1 (by decide)
      rw [Nat.mul_one] at this
      rw [this]
    have hlo : 2 ^ 52 ≤ n * 2 ^ s := by
      rw [← hpow]
      exact Nat.mul_le_mul_right _ hl1
    have hhi : n * 2 ^ s < 2 ^ 53 := by
      have : 2 ^ (log2 n + 1) * 2 ^ s = 2 ^ 53 := by rw [← pow_add]; congr 1; omega
      rw [← this]
      exact Nat.mul_lt_mul_of_pos_right hl2 hps
    have hla : log2 (n * 2 ^ s) = 52 := log2_unique hlo hhi
    have h1024 : (1024 : Nat) = 2 ^ 10 := by norm_num
    have hb : 2 ^ s * 1024 = 2 ^ (s + 10) := by rw [h1024, ← pow_add]
    have hlb : log2 (2 ^ s * 1024) = s + 10 := by
      rw [hb]
      exact log2_unique (le_refl _) (Nat.pow_lt_pow_right (by decide) (by omega))
    have hd : (float64 n).div 1024 = ⟨n * 2 ^ s, 2 ^ (s + 10)⟩ := by
      unfold Float64.div
      rw [hf]
      show nearestFloat64 (n * 2 ^ s) (2 ^ s * 1024) = _
      rw [nearestFloat64_eq (n * 2 ^ s) (2 ^ s * 1024) 52 (s + 10) (by omega)
        (by rw [hb]; exact Nat.pow_pos (by decide)) hla hlb
        (by
          rw [hb]
          calc 2 ^ (s + 10) * 2 ^ 52 ≤ 2 ^ (s + 10) * (n * 2 ^ s) := Nat.mul_le_mul_left _ hlo
            _ = n * 2 ^ s * 2 ^ (s + 10) := Nat.mul_comm _ _)
        (by omega)]
      have e1 : s + 10 + 52 - 52 = s + 10 := by omega
      rw [e1, hb, roundHalfEven_exact _ _ (Nat.pow_pos (by decide))]
    rw [hd]
    show roundHalfEven (n * 2 ^ s * 100) (2 ^ (s + 10)) = _
    have e2 : n * 2 ^ s * 100 = n * 100 * 2 ^ s := by ring
    have e3 : 2 ^ (s + 10) = 1024 * 2 ^ s := by rw [← hb, Nat.mul_comm]
    rw [e2, e3, roundHalfEven_scale _ _ _ hps]

theorem formatF_two (x : Float64) :
    formatF 2 x =
      natDigits (hundredths x / 100) ++
        [46, digitByte (hundredths x / 10), digitByte (hundredths x)] := by
  have h1 : hundredths x % 100 / 10 % 10 = hundredths x / 10 % 10 := by omega
  have h2 : hundredths x % 100 % 10 = hundredths x % 10 := by omega
  have h3 : roundHalfEven (x.num * 100) x.den = hundredths x := rfl
  simp only [formatF, fracDigits, digitByte, List.nil_append, List.cons_append]
  norm_num [h3, h1, h2]

set_option maxRecDepth 100000 in
/-- C8 (as stated) fails: the duration is printed with two decimals, not three
(1234 microseconds appear as `1.23 ms`), and a body copy that fails does produce
a log line, even with the access log switched off. -/
theorem C8_counterexample :
    (proxyHandler demoConfig demoEnv uaOverrideRequest).log =
        [utf8 "请求: http://example.com/a.jpg [GET] 状态: 200 大小: 0.00 KB 耗时: 1.23 ms"] ∧
      demoEnv.elapsedMicros = 1234 ∧
      (proxyHandler quietConfig brokenCopyEnv uaOverrideRequest).log =
        [utf8 "传输响应失败: unexpected EOF"] := by
  decide

/-- C8 (amended): when logging is enabled and the relay and the body copy
succeeded (the upstream answered with a status code from 100 to 999, which
`WriteHeader` accepts), the access-log line reports the bytes transferred in KiB
(`float64(bytes)/1024`) with two decimals and the duration in milliseconds
(`float64(microseconds)/1000`) with two decimals, each as integer part, point
and the two digits of the hundredths; below `2 ^ 53` bytes the hundredths of the
size are those of `bytes / 1024` rounded to the nearest, ties to even.  With
logging disabled nothing is logged for such a request.  A request whose body
copy failed gets no access-log line but one line that reports the copy error,
whether logging is enabled or not.  A request the handler fails itself logs
nothing: not the 400 for a missing `url`, not the 500 for a request that could
not be built, not the 500 for a request the client could not execute; nor is
anything logged when the upstream status code is below 100 or above 999. -/
theorem C8_access_log (cfg : Config) (env : Env) (r : Request) (resp : UpstreamResponse)
    (hurl : r.Query.Get (utf8 "url") ≠ [])
    (hnew : env.newRequest r.Method (r.Query.Get (utf8 "url")) = none)
    (hdo : env.clientDo (outboundRequest cfg r) = .ok resp)
    (hcode : 100 ≤ resp.StatusCode ∧ resp.StatusCode ≤ 999) :
    (resp.copyErr = none → cfg.logRequests = true →
        (proxyHandler cfg env r).log =
          [utf8 "请求: " ++ r.Query.Get (utf8 "url") ++ utf8 " [" ++ r.Method ++ utf8 "] 状态: " ++
            formatD resp.StatusCode ++ utf8 " 大小: " ++
            (natDigits (hundredths ((float64 resp.Body.length).div 1024) / 100) ++
              [46, digitByte (hundredths ((float64 resp.Body.length).div 1024) / 10),
                digitByte (hundredths ((float64 resp.Body.length).div 1024))]) ++
            utf8 " KB 耗时: " ++
            (natDigits (hundredths ((float64 env.elapsedMicros).div 1000) / 100) ++
              [46, digitByte (hundredths ((float64 env.elapsedMicros).div 1000) / 10),
                digitByte (hundredths ((float64 env.elapsedMicros).div 1000))]) ++
            utf8 " ms"]) ∧
      (resp.Body.length < 2 ^ 53 →
        hundredths ((float64 resp.Body.length).div 1024) =
          roundHalfEven (resp.Body.length * 100) 1024) ∧
      (resp.copyErr = none → cfg.logRequests = false → (proxyHandler cfg env r).log = []) ∧
      (∀ err, resp.copyErr = some err →
        (proxyHandler cfg env r).log = [utf8 "传输响应失败: " ++ err]) ∧
      (∀ (env' : Env) (r' : Request), r'.Query.Get (utf8 "url") = [] →
        (proxyHandler cfg env' r').status = some 400 ∧ (proxyHandler cfg env' r').log = []) ∧
      (∀ (env' : Env) (r' : Request) (e : GoString), r'.Query.Get (utf8 "url") ≠ [] →
        env'.newRequest r'.Method (r'.Query.Get (utf8 "url")) = some e →
        (proxyHandler cfg env' r').status = some 500 ∧ (proxyHandler cfg env' r').log = []) ∧
      (∀ (env' : Env) (r' : Request) (e : GoString), r'.Query.Get (utf8 "url") ≠ [] →
        env'.newRequest r'.Method (r'.Query.Get (utf8 "url")) = none →
        env'.clientDo (outboundRequest cfg r') = .error e →
        (proxyHandler cfg env' r').status = some 500 ∧ (proxyHandler cfg env' r').log = []) ∧
      (∀ (env' : Env) (r' : Request) (resp' : UpstreamResponse),
        r'.Query.Get (utf8 "url") ≠ [] →
        env'.newRequest r'.Method (r'.Query.Get (utf8 "url")) = none →
        env'.clientDo (outboundRequest cfg r') = .ok resp' →
        (resp'.StatusCode < 100 ∨ resp'.StatusCode > 999) →
        (proxyHandler cfg env' r').status = none ∧ (proxyHandler cfg env' r').log = []) := by
  obtain ⟨st, interim, hrel⟩ := proxyHandler_valid cfg env r resp hurl hnew hdo hcode
  rw [hrel]
  refine ⟨?_, hundredths_kib _, ?_, ?_, ?_, ?_, ?_, ?_⟩
  · intro hc hl
    simp only [relayResponse, hc, hl, if_true, accessLogLine, formatF_two]
  · intro hc hl
    simp [relayResponse, hc, hl]
  · intro err hc
    simp [relayResponse, hc]
  · intro env' r' h
    rw [proxyHandler_missing cfg env' r' h]
    exact ⟨rfl, rfl⟩
  · intro env' r' e h hn
    rw [proxyHandler_build_error cfg env' r' e h hn]
    exact ⟨rfl, rfl⟩
  · intro env' r' e h hn hd
    rw [proxyHandler_upstream_error cfg env' r' e h hn hd]
    exact ⟨rfl, rfl⟩
  · intro env' r' resp' h hn hd hc
    rw [proxyHandler_invalid cfg env' r' resp' h hn hd hc]
    exact ⟨rfl, rfl⟩

set_option maxRecDepth 100000 in
/-- Witness of C8 (amended): a relay of five bytes in 1234 microseconds is logged
as `0.00 KB` and `1.23 ms`. -/
theorem C8_access_log_witness :
    uaOverrideRequest.Query.Get (utf8 "url") ≠ [] ∧
      (proxyHandler demoConfig demoEnv uaOverrideRequest).log =
        [utf8 "请求: http://example.com/a.jpg [GET] 状态: 200 大小: 0.00 KB 耗时: 1.23 ms"] :=
  ⟨by decide,
    ((C8_access_log demoConfig demoEnv uaOverrideRequest
      { StatusCode := 200, Header := [(utf8 "Set-Cookie", [utf8 "a=1", utf8 "b=2"])],
        Body := utf8 "hello", copyErr := none }
      (by decide) (by decide) rfl (by decide)).1 rfl rfl).trans (by decide)⟩

set_option maxRecDepth 100000 in
theorem escapeByte_hex : ∀ c : Byte,
    ishex (upperhex (c.val / 16)) = true ∧ ishex (upperhex (c.val % 16)) = true ∧
      (Fin.ofNat (unhex (upperhex (c.val / 16)) * 16 + unhex (upperhex (c.val % 16))) : Byte) = c := by
  decide

set_option maxRecDepth 100000 in
theorem shouldEscape_false : ∀ c : Byte, shouldEscape c = false → c ≠ 37 ∧ c ≠ 43 := by
  decide

set_option maxRecDepth 100000 in
theorem escapeByte_clean_aux : ∀ c : Byte,
    (escapeByte c).all (fun d => decide (d ≠ 38 ∧ d ≠ 61 ∧ d ≠ 59)) = true := by
  decide

theorem unescapeOK_cons_ne {c : Byte} (h : c ≠ 37) (t : GoString) :
    unescapeOK (c :: t) = unescapeOK t := by
  rcases t with _ | ⟨a, _ | ⟨b, t⟩⟩ <;> simp [unescapeOK, h]

theorem unescapeOK_percent (a b : Byte) (t : GoString) :
    unescapeOK (37 :: a :: b :: t) = (ishex a && ishex b && unescapeOK t) := by
  rw [unescapeOK]
  simp

theorem unescapeBytes_cons_ne {c : Byte} (h : c ≠ 37) (h' : c ≠ 43) (t : GoString) :
    unescapeBytes (c :: t) = c :: unescapeBytes t := by
  rcases t with _ | ⟨a, _ | ⟨b, t⟩⟩ <;> simp [unescapeBytes, h, h']

theorem unescapeBytes_plus (t : GoString) : unescapeBytes (43 :: t) = 32 :: unescapeBytes t := by
  rcases t with _ | ⟨a, _ | ⟨b, t⟩⟩ <;> simp [unescapeBytes]

theorem unescapeBytes_percent (a b : Byte) (t : GoString) :
    unescapeBytes (37 :: a :: b :: t) = Fin.ofNat (unhex a * 16 + unhex b) :: unescapeBytes t := by
  rw [unescapeBytes]
  simp

theorem unescapeOK_escapeByte (c : Byte) (t : GoString) :
    unescapeOK (escapeByte c ++ t) = unescapeOK t := by
  unfold escapeByte
  by_cases h32 : c = 32
  · subst h32
    simp only [if_true, List.singleton_append]
    exact unescapeOK_cons_ne (by decide) t
  · by_cases hs : shouldEscape c = true
    · have h := escapeByte_hex c
      simp only [h32, hs, if_false, if_true, List.cons_append, List.nil_append]
      rw [unescapeOK_percent, h.1, h.2.1]
      rfl
    · have hs' : shouldEscape c = false := by simpa using hs
      have h := shouldEscape_false c hs'
      simp only [h32, hs', if_false, List.singleton_append, Bool.false_eq_true]
      exact unescapeOK_cons_ne h.1 t

theorem unescapeBytes_escapeByte (c : Byte) (t : GoString) :
    unescapeBytes (escapeByte c ++ t) = c :: unescapeBytes t := by
  unfold escapeByte
  by_cases h32 : c = 32
  · subst h32
    simp only [if_true, List.singleton_append]
    exact unescapeBytes_plus t
  · by_cases hs : shouldEscape c = true
    · have h := escapeByte_hex c
      simp only [h32, hs, if_false, if_true, List.cons_append, List.nil_append]
      rw [unescapeBytes_percent, h.2.2]
    · have hs' : shouldEscape c = false := by simpa using hs
      have h := shouldEscape_false c hs'
      simp only [h32, hs', if_false, List.singleton_append, Bool.false_eq_true]
      exact unescapeBytes_cons_ne h.1 h.2 t

theorem QueryEscape_cons (c : Byte) (s : GoString) :
    QueryEscape (c :: s) = escapeByte c ++ QueryEscape s := by
  simp [QueryEscape]

theorem QueryUnescape_QueryEscape (s : GoString) : QueryUnescape (QueryEscape s) = some s := by
  have h : unescapeOK (QueryEscape s) = true ∧ unescapeBytes (QueryEscape s) = s := by
    induction s with
    | nil => exact ⟨rfl, rfl⟩
    | cons c cs ih =>
      rw [QueryEscape_cons, unescapeOK_escapeByte, unescapeBytes_escapeByte, ih.2]
      exact ⟨ih.1, rfl⟩
  simp [QueryUnescape, h.1, h.2]

theorem QueryEscape_clean (s : GoString) (d : Byte) (hd : d ∈ QueryEscape s) :
    d ≠ 38 ∧ d ≠ 61 ∧ d ≠ 59 := by
  simp only [QueryEscape, List.mem_flatMap] at hd
  obtain ⟨c, _, hc⟩ := hd
  have h := escapeByte_clean_aux c
  rw [List.all_eq_true] at h
  simpa using h d hc

theorem indexByte_append_sep {sep : Byte} {p : GoString} (h : sep ∉ p) (r : GoString) :
    indexByte sep (p ++ sep :: r) = some p.length := by
  induction p with
  | nil => simp [indexByte]
  | cons c cs ih =>
    simp only [List.mem_cons, not_or] at h
    simp [indexByte, Ne.symm h.1, ih h.2]

theorem Cut_append {sep : Byte} {p : GoString} (h : sep ∉ p) (r : GoString) :
    Cut (p ++ sep :: r) sep = (p, r) := by
  unfold Cut
  rw [indexByte_append_sep h]
  simp

theorem Cut_of_not_mem {sep : Byte} {p : GoString} (h : sep ∉ p) : Cut p sep = (p, []) := by
  unfold Cut
  rw [indexByte_eq_none.2 h]

theorem encodePiece_ne_nil (k v : GoString) : encodePiece k v ≠ [] := by
  simp [encodePiece]

theorem encodePiece_no_amp (k v : GoString) : (38 : Byte) ∉ encodePiece k v := by
  intro h
  simp only [encodePiece, List.mem_append, List.mem_cons] at h
  rcases h with h | h | h
  · exact (QueryEscape_clean k 38 h).1 rfl
  · exact absurd h (by decide)
  · exact (QueryEscape_clean v 38 h).1 rfl

theorem encodePiece_no_semicolon (k v : GoString) : (59 : Byte) ∉ encodePiece k v := by
  intro h
  simp only [encodePiece, List.mem_append, List.mem_cons] at h
  rcases h with h | h | h
  · exact (QueryEscape_clean k 59 h).2.2 rfl
  · exact absurd h (by decide)
  · exact (QueryEscape_clean v 59 h).2.2 rfl

theorem Cut_encodePiece (k v : GoString) :
    Cut (encodePiece k v) 61 = (QueryEscape k, QueryEscape v) := by
  unfold encodePiece
  exact Cut_append (fun h => (QueryEscape_clean k 61 h).2.1 rfl) _

theorem parseQueryLoop_nil (fuel : Nat) (m : Values) : parseQueryLoop fuel m [] = m := by
  cases fuel <;> simp [parseQueryLoop]

theorem parseQueryLoop_piece (fuel : Nat) (m : Values) (k v rest : GoString)
    (hrest : rest = [] ∨ ∃ q, rest = 38 :: q) :
    parseQueryLoop (fuel + 1) m (encodePiece k v ++ rest) =
      parseQueryLoop fuel (addPair m (k, v)) (rest.drop 1) := by
  have hne : encodePiece k v ++ rest ≠ [] := by simp [encodePiece]
  have hcut : Cut (encodePiece k v ++ rest) 38 = (encodePiece k v, rest.drop 1) := by
    rcases hrest with h | ⟨q, h⟩
    · subst h
      simpa using Cut_of_not_mem (encodePiece_no_amp k v)
    · subst h
      simpa using Cut_append (encodePiece_no_amp k v) q
  have hsemi : (encodePiece k v).contains 59 = false := by
    simpa using encodePiece_no_semicolon k v
  rw [parseQueryLoop]
  simp only [hne, if_false, hcut, hsemi, Bool.false_eq_true, encodePiece_ne_nil, Cut_encodePiece,
    QueryUnescape_QueryEscape]
  rfl

theorem parseQueryLoop_pairs (ps : List (GoString × GoString)) (fuel : Nat) (m : Values)
    (k v : GoString) (hfuel : ps.length + 1 ≤ fuel) :
    parseQueryLoop fuel m (encodePiece k v ++ joinRest ps) = (((k, v) :: ps).foldl addPair m) := by
  induction ps generalizing fuel m k v with
  | nil =>
    obtain ⟨f, rfl⟩ : ∃ f, fuel = f + 1 := ⟨fuel - 1, by simp at hfuel; omega⟩
    have := parseQueryLoop_piece f m k v [] (Or.inl rfl)
    simp only [joinRest, List.flatMap_nil] at this ⊢
    rw [this]
    simp [parseQueryLoop_nil]
  | cons p ps ih =>
    obtain ⟨f, rfl⟩ : ∃ f, fuel = f + 1 := ⟨fuel - 1, by simp at hfuel; omega⟩
    have hj : joinRest (p :: ps) = 38 :: (encodePiece p.1 p.2 ++ joinRest ps) := by
      simp [joinRest]
    rw [hj, parseQueryLoop_piece f m k v _ (Or.inr ⟨_, rfl⟩)]
    simp only [List.drop_succ_cons, List.drop_zero]
    rw [ih f (addPair m (k, v)) p.1 p.2 (by simp at hfuel ⊢; omega)]
    rfl

theorem joinRest_length (ps : List (GoString × GoString)) : ps.length ≤ (joinRest ps).length := by
  induction ps with
  | nil => simp [joinRest]
  | cons p ps ih =>
    have hj : joinRest (p :: ps) = 38 :: (encodePiece p.1 p.2 ++ joinRest ps) := by
      simp [joinRest]
    rw [hj]
    simp only [List.length_cons, List.length_append]
    omega

/-- Parsing what `Values.Encode` writes for a list of pairs records exactly these
pairs, in order. -/
theorem ParseQuery_pairs (ps : List (GoString × GoString)) (k v : GoString) :
    ParseQuery (encodePiece k v ++ joinRest ps) = ((k, v) :: ps).foldl addPair [] := by
  unfold ParseQuery
  apply parseQueryLoop_pairs
  have h1 := joinRest_length ps
  have h2 : 1 ≤ (encodePiece k v).length := by
    simp only [encodePiece, List.length_append, List.length_cons]
    omega
  simp only [List.length_append]
  omega

theorem foldl_encodeStep (ps : List (GoString × GoString)) (buf : GoString) :
    ps.foldl encodeStep buf = if buf = [] then encodeList ps else buf ++ joinRest ps := by
  induction ps generalizing buf with
  | nil => by_cases h : buf = [] <;> simp [h, encodeList, joinRest]
  | cons p ps ih =>
    rw [List.foldl_cons, ih]
    have hj : joinRest (p :: ps) = 38 :: (encodePiece p.1 p.2 ++ joinRest ps) := by
      simp [joinRest]
    by_cases h : buf = []
    · subst h
      have h1 : encodeStep [] p = encodePiece p.1 p.2 := by simp [encodeStep, encodePiece]
      rw [h1, if_neg (encodePiece_ne_nil _ _)]
      simp [encodeList]
    · have hlen : buf.length > 0 := List.length_pos.2 h
      have h1 : encodeStep buf p = buf ++ 38 :: encodePiece p.1 p.2 := by
        simp [encodeStep, encodePiece, hlen]
      rw [h1, if_neg (by simp), if_neg h, hj]
      simp

theorem Encode_eq (v : Values) :
    Values.Encode v = encodeList (encodePairs (sortKeys (v.map Prod.fst)) v) := by
  have key : ∀ (keys : List GoString) (buf : GoString),
      keys.foldl
        (fun buf k =>
          (mapGet v k).foldl
            (fun buf value =>
              (if buf.length > 0 then buf ++ [38] else buf) ++ QueryEscape k ++ [61] ++
                QueryEscape value)
            buf)
        buf = (encodePairs keys v).foldl encodeStep buf := by
    intro keys
    induction keys with
    | nil => intro buf; rfl
    | cons k keys ih =>
      intro buf
      rw [List.foldl_cons, ih]
      simp only [encodePairs, List.flatMap_cons, List.foldl_append, List.foldl_map]
      rfl
  unfold Values.Encode
  by_cases h : v.length = 0
  · have hv : v = [] := List.length_eq_zero.1 h
    subst hv
    rfl
  · rw [if_neg h, key, foldl_encodeStep, if_pos rfl]

theorem ParseQuery_encodeList (ps : List (GoString × GoString)) :
    ParseQuery (encodeList ps) = ps.foldl addPair [] := by
  cases ps with
  | nil => rfl
  | cons p ps => exact ParseQuery_pairs ps p.1 p.2

theorem mapGet_foldl_addPair (ps : List (GoString × GoString)) (m : Values) (k : GoString) :
    mapGet (ps.foldl addPair m) k = mapGet m k ++ (ps.filter (fun p => p.1 = k)).map Prod.snd := by
  induction ps generalizing m with
  | nil => simp
  | cons p ps ih =>
    rw [List.foldl_cons, ih]
    unfold addPair
    rw [mapGet_mapSet]
    by_cases h : p.1 = k
    · subst h
      simp
    · simp [h, Ne.symm h]

theorem filter_encodePairs (keys : List GoString) (v : Values) (k : GoString)
    (hn : keys.Nodup) :
    ((encodePairs keys v).filter (fun p => p.1 = k)).map Prod.snd =
      if k ∈ keys then mapGet v k else [] := by
  induction keys with
  | nil => simp [encodePairs]
  | cons k0 keys ih =>
    rw [List.nodup_cons] at hn
    have h1 : encodePairs (k0 :: keys) v =
        (mapGet v k0).map (fun value => (k0, value)) ++ encodePairs keys v := by
      simp [encodePairs]
    rw [h1, List.filter_append, List.map_append, ih hn.2]
    by_cases h : k0 = k
    · subst h
      have h2 : ((mapGet v k0).map (fun value => (k0, value))).filter (fun p => p.1 = k0) =
          (mapGet v k0).map (fun value => (k0, value)) := by
        apply List.filter_eq_self.2
        intro a ha
        simp only [List.mem_map] at ha
        obtain ⟨_, _, rfl⟩ := ha
        simp
      simp [h2, hn.1, Function.comp_def]
    · have h2 : ((mapGet v k0).map (fun value => (k0, value))).filter (fun p => p.1 = k) = [] := by
        apply List.filter_eq_nil_iff.2
        intro a ha
        simp only [List.mem_map] at ha
        obtain ⟨_, _, rfl⟩ := ha
        simp [h]
      simp [h2, h, Ne.symm h]

theorem insertKey_perm (k : GoString) (l : List GoString) : (insertKey k l).Perm (k :: l) := by
  induction l with
  | nil => exact List.Perm.refl _
  | cons x xs ih =>
    unfold insertKey
    split
    · exact (List.Perm.cons x ih).trans (List.Perm.swap k x xs)
    · exact List.Perm.refl _

theorem sortKeys_perm (l : List GoString) : (sortKeys l).Perm l := by
  induction l with
  | nil => exact List.Perm.refl _
  | cons k ks ih => exact (insertKey_perm k _).trans (List.Perm.cons k ih)

/-- The query string `Values.Encode` writes for a map is read back by
`url.ParseQuery` as a map with the same values, in the same order, under
every key. -/
theorem mapGet_ParseQuery_Encode (v : Values) (hn : (mapKeys v).Nodup) (k : GoString) :
    mapGet (ParseQuery (Values.Encode v)) k = mapGet v k := by
  rw [Encode_eq, ParseQuery_encodeList, mapGet_foldl_addPair]
  have hp := sortKeys_perm (v.map Prod.fst)
  rw [filter_encodePairs _ _ _ ((List.Perm.nodup_iff hp).2 hn)]
  by_cases h : k ∈ sortKeys (v.map Prod.fst)
  · simp [h, mapGet, mapLookup]
  · have h' : k ∉ mapKeys v := fun hx => h ((List.Perm.mem_iff hp).2 hx)
    rw [mapGet_of_not_mem h', if_neg h]
    rfl

theorem HasPrefix_iff (s p : GoString) : HasPrefix s p = true ↔ List.IsPrefix p s := by
  induction p generalizing s with
  | nil => simp [HasPrefix]
  | cons a p ih =>
    cases s with
    | nil => simp [HasPrefix]
    | cons c s =>
      simp only [HasPrefix, Bool.and_eq_true, beq_iff_eq, ih, List.cons_prefix_cons]
      constructor
      · rintro ⟨h1, h2⟩; exact ⟨h1.symm, h2⟩
      · rintro ⟨h1, h2⟩; exact ⟨h1.symm, h2⟩

theorem pathTarget_ne_nil {u : GoString} (hu : u ≠ []) : pathTarget u ≠ [] := by
  unfold pathTarget
  split
  · exact hu
  · have h : utf8 "https://" ≠ [] := by decide
    simp [h]

theorem simplifiedProxyHandler_eq (cfg : Config) (env : Env) (r : Request) (u : GoString)
    (c : Byte) (hpath : r.Path = c :: u) (hu : u ≠ []) :
    simplifiedProxyHandler cfg env r = some (proxyHandler cfg env (pathFormRequest r u)) := by
  unfold simplifiedProxyHandler
  rw [hpath]
  simp only [hu, if_false]
  have ht : (if (!HasPrefix u (utf8 "http://") && !HasPrefix u (utf8 "https://")) = true then
        utf8 "https://" ++ u else u) = pathTarget u := by
    unfold pathTarget
    by_cases h1 : HasPrefix u (utf8 "http://") = true
    · simp [h1, (HasPrefix_iff _ _).1 h1]
    · by_cases h2 : HasPrefix u (utf8 "https://") = true
      · simp [h2, (HasPrefix_iff _ _).1 h2]
      · have h1' : ¬ List.IsPrefix (utf8 "http://") u := fun h => h1 ((HasPrefix_iff _ _).2 h)
        have h2' : ¬ List.IsPrefix (utf8 "https://") u := fun h => h2 ((HasPrefix_iff _ _).2 h)
        simp [h1, h2, h1', h2']
  rw [ht]
  rfl

theorem parseQueryLoop_nodup (fuel : Nat) (m : Values) (q : GoString) (hm : (mapKeys m).Nodup) :
    (mapKeys (parseQueryLoop fuel m q)).Nodup := by
  induction fuel generalizing m q with
  | zero => exact hm
  | succ fuel ih =>
    unfold parseQueryLoop
    simp only
    split
    · exact hm
    · split
      · exact ih _ _ hm
      · split
        · exact ih _ _ hm
        · split
          · exact ih _ _ hm
          · split
            · exact ih _ _ hm
            · exact ih _ _ (mapKeys_mapSet_nodup _ _ _ hm)

theorem ParseQuery_nodup (q : GoString) : (mapKeys (ParseQuery q)).Nodup :=
  parseQueryLoop_nodup _ _ _ (by simp [mapKeys])

/-- The query of the request handed to `proxyHandler`: `url` holds the target
alone, every other key keeps its values. -/
theorem mapGet_pathFormRequest (r : Request) (u k : GoString) :
    mapGet (pathFormRequest r u).Query k =
      if k = utf8 "url" then [pathTarget u] else mapGet r.Query k := by
  show mapGet (ParseQuery (Values.Encode (Values.Set r.Query (utf8 "url") (pathTarget u)))) k = _
  have hn : (mapKeys (Values.Set r.Query (utf8 "url") (pathTarget u))).Nodup :=
    mapKeys_mapSet_nodup _ _ _ (ParseQuery_nodup _)
  rw [mapGet_ParseQuery_Encode _ hn]
  exact mapGet_mapSet _ _ _ _

theorem Get_pathFormRequest (r : Request) (u k : GoString) :
    (pathFormRequest r u).Query.Get k =
      if k = utf8 "url" then pathTarget u else r.Query.Get k := by
  unfold Values.Get
  rw [mapGet_pathFormRequest]
  by_cases h : k = utf8 "url" <;> simp [h]

theorem proxyHandler_congr (cfg : Config) (env : Env) (r r' : Request)
    (hm : r.Method = r'.Method) (hh : r.Header = r'.Header) (hb : r.Body = r'.Body)
    (hurl : r.Query.Get (utf8 "url") = r'.Query.Get (utf8 "url"))
    (hhd : r.Query.Get (utf8 "headers") = r'.Query.Get (utf8 "headers")) :
    proxyHandler cfg env r = proxyHandler cfg env r' := by
  have hreq : outboundRequest cfg r = outboundRequest cfg r' := by
    simp only [outboundRequest, outboundHeader, hm, hh, hb, hurl, hhd]
  have hrel : ∀ (resp : UpstreamResponse) (st : Int) (interim : List Int),
      relayResponse cfg env r resp st interim = relayResponse cfg env r' resp st interim := by
    intro resp st interim
    simp only [relayResponse, hm, hurl, hreq]
  unfold proxyHandler
  simp only [hm, hurl, hreq, hrel]

/-- C2: in the path form, for a request path `"/" ++ u` with `u` non-empty, the
target URL `proxyHandler` relays to is `u` itself when `u` starts with `http://`
or `https://`, and `"https://" ++ u` otherwise.  The value written with
`q.Set("url", ...)` and encoded into `RawQuery` is read back unchanged by
`Query().Get("url")`; the handler returns, and the outbound request it builds
goes to that URL and is built whenever `http.NewRequest` accepts it.  The path
`/example.com/a.jpg` gives `https://example.com/a.jpg`, and
`/http://example.com/a.jpg` gives `http://example.com/a.jpg`. -/
theorem C2_path_form_target (cfg : Config) (env : Env) (r : Request) (u : GoString)
    (hpath : r.Path = 47 :: u) (hu : u ≠ []) :
    (ParseQuery (Values.Encode (Values.Set r.Query (utf8 "url") (pathTarget u)))).Get (utf8 "url") =
        pathTarget u ∧
      (∃ o, simplifiedProxyHandler cfg env r = some o ∧
        (∀ req, o.outbound = some req → req.URL = pathTarget u) ∧
        (env.newRequest r.Method (pathTarget u) = none →
          ∃ req, o.outbound = some req ∧ req.URL = pathTarget u)) ∧
      pathTarget (utf8 "example.com/a.jpg") = utf8 "https://example.com/a.jpg" ∧
      pathTarget (utf8 "http://example.com/a.jpg") = utf8 "http://example.com/a.jpg" := by
  have hget : (pathFormRequest r u).Query.Get (utf8 "url") = pathTarget u := by
    rw [Get_pathFormRequest, if_pos rfl]
  refine ⟨hget, ⟨_, simplifiedProxyHandler_eq cfg env r u 47 hpath hu, ?_, ?_⟩, by decide, by decide⟩
  · intro req hreq
    rw [outbound_eq hreq]
    exact hget
  · intro hnew
    have hne : (pathFormRequest r u).Query.Get (utf8 "url") ≠ [] := by
      rw [hget]; exact pathTarget_ne_nil hu
    have hnew' : env.newRequest (pathFormRequest r u).Method
        ((pathFormRequest r u).Query.Get (utf8 "url")) = none := by
      rw [hget]; exact hnew
    refine ⟨outboundRequest cfg (pathFormRequest r u), ?_, hget⟩
    rw [proxyHandler_outbound, if_pos ⟨hne, hnew'⟩]

set_option maxRecDepth 100000 in
/-- Witness of C2: the path `/example.com/a.jpg` is relayed to
`https://example.com/a.jpg`, whatever `url` parameter the query carries. -/
theorem C2_path_form_witness :
    pathRequest.Path = 47 :: utf8 "example.com/a.jpg" ∧
      (simplifiedProxyHandler demoConfig demoEnv pathRequest).map
          (fun o => o.outbound.map (fun req => req.URL)) =
        some (some (utf8 "https://example.com/a.jpg")) ∧
      (ParseQuery (Values.Encode (Values.Set pathRequest.Query (utf8 "url")
          (pathTarget (utf8 "example.com/a.jpg"))))).Get (utf8 "url") =
        utf8 "https://example.com/a.jpg" :=
  ⟨by decide, by decide,
    (C2_path_form_target demoConfig demoEnv pathRequest (utf8 "example.com/a.jpg") (by decide)
      (by decide)).1.trans (by decide)⟩

/-- C9: the path form is the query form with the `url` parameter replaced.  For
a request with path `"/" ++ u` (`u` non-empty) and any query string,
`simplifiedProxyHandler` returns what `proxyHandler` returns on the same request
(same method, headers and body) with any query whose `url` parameter is the
normalised `u` and whose `headers` parameter is that of the caller.  In the
query `proxyHandler` then reads, `url` holds the normalised `u` alone, so a `url`
parameter of the caller is ignored, and every other parameter keeps its values,
in order; the outbound request goes to the normalised `u`, with nothing of the
caller's query string in it. -/
theorem C9_path_form_is_query_form (cfg : Config) (env : Env) (r : Request) (u : GoString)
    (hpath : r.Path = 47 :: u) (hu : u ≠ []) :
    (∀ r' : Request, r'.Method = r.Method → r'.Header = r.Header → r'.Body = r.Body →
        r'.Query.Get (utf8 "url") = pathTarget u →
        r'.Query.Get (utf8 "headers") = r.Query.Get (utf8 "headers") →
        simplifiedProxyHandler cfg env r = some (proxyHandler cfg env r')) ∧
      (∀ k : GoString,
        mapGet (ParseQuery (Values.Encode (Values.Set r.Query (utf8 "url") (pathTarget u)))) k =
          if k = utf8 "url" then [pathTarget u] else mapGet r.Query k) ∧
      (∀ o req, simplifiedProxyHandler cfg env r = some o → o.outbound = some req →
        req.URL = pathTarget u ∧
          req.Header =
            customHeaders
              (if r.Header.Get (utf8 "Referer") ≠ [] then
                Header.Set (Header.Set [] (utf8 "User-Agent") cfg.userAgent) (utf8 "Referer")
                  (r.Header.Get (utf8 "Referer"))
              else Header.Set [] (utf8 "User-Agent") cfg.userAgent)
              (r.Query.Get (utf8 "headers"))) := by
  have hurl : (pathFormRequest r u).Query.Get (utf8 "url") = pathTarget u := by
    rw [Get_pathFormRequest, if_pos rfl]
  have hhd : (pathFormRequest r u).Query.Get (utf8 "headers") = r.Query.Get (utf8 "headers") := by
    rw [Get_pathFormRequest, if_neg (by decide)]
  refine ⟨?_, fun k => mapGet_pathFormRequest r u k, ?_⟩
  · intro r' hm hh hb hu' hhd'
    rw [simplifiedProxyHandler_eq cfg env r u 47 hpath hu]
    congr 1
    exact proxyHandler_congr cfg env _ _ hm.symm hh.symm hb.symm (hurl.trans hu'.symm)
      (hhd.trans hhd'.symm)
  · intro o req ho hreq
    rw [simplifiedProxyHandler_eq cfg env r u 47 hpath hu] at ho
    cases ho
    rw [outbound_eq hreq]
    refine ⟨hurl, ?_⟩
    show outboundHeader cfg (pathFormRequest r u) = _
    unfold outboundHeader
    rw [hhd]
    rfl

set_option maxRecDepth 100000 in
/-- Witness of C9: a path-form request whose query carries `url`, `headers` and
a repeated parameter `w`. -/
theorem C9_path_form_witness :
    pathRequest.Path = 47 :: utf8 "example.com/a.jpg" ∧
      pathRequest.Query.Get (utf8 "url") = utf8 "http://evil.example/" ∧
      mapGet (ParseQuery (Values.Encode (Values.Set pathRequest.Query (utf8 "url")
          (pathTarget (utf8 "example.com/a.jpg"))))) (utf8 "w") = [utf8 "1", utf8 "2"] ∧
      (simplifiedProxyHandler demoConfig demoEnv pathRequest).map
          (fun o => o.outbound.map (fun req => (req.URL, req.Header))) =
        some (some (utf8 "https://example.com/a.jpg",
          [(utf8 "User-Agent", [utf8 "Mozilla/5.0"]), (utf8 "Referer", [utf8 "abc"]),
            (utf8 "Cache-Control", [utf8 "no-cache"])])) :=
  ⟨by decide, by decide,
    ((C9_path_form_is_query_form demoConfig demoEnv pathRequest (utf8 "example.com/a.jpg")
      (by decide) (by decide)).2.1 (utf8 "w")).trans (by decide),
    by decide⟩

end LightImageProxy
